import Mathlib

/-!
Token bucket limiter (`internal/algorithms/token_bucket.go`).

A shallow embedding of `TokenBucket`, `bucketState`, `NewTokenBucket` and
`TokenBucket.Allow`, followed by the properties of the admission decision.

Modelling conventions:

* a `float64` is a value of `Float64`: NaN, the two infinities, or a finite
  rational; every arithmetic operation rounds its exact result to binary64
  (to nearest, ties to even, overflow to an infinity) with `roundQ`, one
  operation at a time (no fused multiply-add, as on amd64). The two zeros are
  the one value `fin 0`: no operation of `Allow` tells them apart.
* an `int` is an `Int`; Go values lie in `-2^63 .. 2^63 - 1`, and a theorem
  that needs a bound states it.
* a `time.Time` is its monotonic reading, an integer count of nanoseconds;
  `Sub` saturates like `time.Time.Sub` and `Seconds` computes like
  `time.Duration.Seconds`.
* the two reads of `time.Now()` inside `Allow` are inputs of the call:
  `created` is the reading stored in a bucket that is made by this call (it is
  read only when the identifier has no bucket yet) and `now` is the reading used
  by the refill step.
* the mutex makes every call atomic, so a limiter is a value and a call is a
  function from the limiter before to the limiter after and the two results.
* the map `buckets` is a partial function from identifiers to bucket states.
-/

namespace TokenBucketLimiter

/-- Values of Go's `float64`: NaN, `+Inf`, `-Inf`, or a finite value `fin q`.
The finite values of the program are binary64 values (`isFloat64 q`): every
conversion and operation below returns such a value. -/
inductive Float64 where
  | nan
  | posInf
  | negInf
  | fin (q : ℚ)
  deriving DecidableEq

/-- Nearest integer, a tie going to the even one. -/
def roundEven (x : ℚ) : Int :=
  if x - ⌊x⌋ < 1 / 2 then ⌊x⌋
  else if 1 / 2 < x - ⌊x⌋ then ⌊x⌋ + 1
  else if ⌊x⌋ % 2 = 0 then ⌊x⌋ else ⌊x⌋ + 1

/-- Binary exponent of a magnitude, not below the smallest normal exponent
`-1022`. -/
def binade (a : ℚ) : Int := max (Int.log 2 a) (-1022)

/-- Spacing of the binary64 values around a magnitude: 53 significant bits. -/
def quantum (a : ℚ) : ℚ := (2 : ℚ) ^ (binade a - 52)

/-- A magnitude rounded to the nearest multiple of its spacing, ties to even. -/
def roundMag (a : ℚ) : ℚ := (roundEven (a / quantum a) : ℚ) * quantum a

/-- Rounding of an exact result to binary64: to nearest, ties to even; a
magnitude that rounds to `2^1024` or more overflows to an infinity. -/
def roundQ (q : ℚ) : Float64 :=
  if (2 : ℚ) ^ (1024 : Int) ≤ roundMag |q| then (if q < 0 then Float64.negInf else Float64.posInf)
  else Float64.fin (if q < 0 then -roundMag |q| else roundMag |q|)

/-- The rational `q` is a finite binary64 value: rounding leaves it unchanged. -/
def isFloat64 (q : ℚ) : Prop := roundQ q = Float64.fin q

/-- Go conversion `float64(n)` of an integer. -/
def float64 (n : Int) : Float64 := roundQ (n : ℚ)

namespace Float64

/-- Go `a + b` on `float64`. -/
def add : Float64 → Float64 → Float64
  | nan, _ => nan
  | _, nan => nan
  | posInf, negInf => nan
  | negInf, posInf => nan
  | posInf, _ => posInf
  | _, posInf => posInf
  | negInf, _ => negInf
  | _, negInf => negInf
  | fin x, fin y => roundQ (x + y)

/-- Go `a - b` on `float64`. -/
def sub : Float64 → Float64 → Float64
  | nan, _ => nan
  | _, nan => nan
  | posInf, posInf => nan
  | negInf, negInf => nan
  | posInf, _ => posInf
  | _, posInf => negInf
  | negInf, _ => negInf
  | _, negInf => posInf
  | fin x, fin y => roundQ (x - y)

/-- Go `a * b` on `float64`. -/
def mul : Float64 → Float64 → Float64
  | nan, _ => nan
  | _, nan => nan
  | posInf, posInf => posInf
  | posInf, negInf => negInf
  | negInf, posInf => negInf
  | negInf, negInf => posInf
  | posInf, fin y => if y = 0 then nan else if 0 < y then posInf else negInf
  | negInf, fin y => if y = 0 then nan else if 0 < y then negInf else posInf
  | fin x, posInf => if x = 0 then nan else if 0 < x then posInf else negInf
  | fin x, negInf => if x = 0 then nan else if 0 < x then negInf else posInf
  | fin x, fin y => roundQ (x * y)

/-- Go `a / b` on `float64`; a zero divisor is taken as `+0` (the only divisor
in the program is the constant `1e9`). -/
def div : Float64 → Float64 → Float64
  | nan, _ => nan
  | _, nan => nan
  | posInf, posInf => nan
  | posInf, negInf => nan
  | negInf, posInf => nan
  | negInf, negInf => nan
  | posInf, fin y => if 0 ≤ y then posInf else negInf
  | negInf, fin y => if 0 ≤ y then negInf else posInf
  | fin _, posInf => fin 0
  | fin _, negInf => fin 0
  | fin x, fin y =>
    if y = 0 then (if x = 0 then nan else if 0 < x then posInf else negInf)
    else roundQ (x / y)

/-- Go `a <= b` on `float64`: false when either side is NaN. -/
def le : Float64 → Float64 → Bool
  | nan, _ => false
  | _, nan => false
  | negInf, _ => true
  | _, posInf => true
  | posInf, _ => false
  | _, negInf => false
  | fin x, fin y => decide (x ≤ y)

/-- Go built-in `min(a, b)` on `float64`: NaN when either argument is NaN. -/
def min : Float64 → Float64 → Float64
  | nan, _ => nan
  | _, nan => nan
  | a, b => if le a b then a else b

end Float64

/-- Go conversion `int(x)` of a `float64`: the fractional part is discarded
(truncation toward zero). For a NaN or a value outside the 64-bit range the
result depends on the implementation; it is `-2^63` here, as on amd64. -/
def int (x : Float64) : Int :=
  match x with
  | Float64.fin q =>
    if -2 ^ 63 ≤ (if 0 ≤ q then ⌊q⌋ else ⌈q⌉) ∧ (if 0 ≤ q then ⌊q⌋ else ⌈q⌉) < 2 ^ 63
    then (if 0 ≤ q then ⌊q⌋ else ⌈q⌉) else -2 ^ 63
  | _ => -2 ^ 63

/-- Go `minDuration`: `-1 << 63` nanoseconds. -/
def minDuration : Int := -2 ^ 63

/-- Go `maxDuration`: `1<<63 - 1` nanoseconds. -/
def maxDuration : Int := 2 ^ 63 - 1

/-- Go `t.Sub(u)`: the duration `t - u` in nanoseconds, saturating at
`maxDuration` and `minDuration`. -/
def Sub (t u : Int) : Int :=
  if maxDuration < t - u then maxDuration
  else if t - u < minDuration then minDuration
  else t - u

/-- Go `d.Seconds()`: `float64(sec) + float64(nsec)/1e9` with
`sec = d / Second` and `nsec = d % Second` (truncated division). -/
def Seconds (d : Int) : Float64 :=
  Float64.add (float64 (Int.tdiv d 1000000000))
    (Float64.div (float64 (Int.tmod d 1000000000)) (Float64.fin 1000000000))

/-- State of a single identifier: `tokens` and `lastRefill` (nanoseconds). -/
structure bucketState where
  tokens : Float64
  lastRefill : Int
  deriving DecidableEq

/-- The limiter: `capacity` (a Go `int`, between `-2^63` and `2^63 - 1`),
`refillRate` and the map from identifiers to buckets. -/
structure TokenBucket where
  capacity : Int
  refillRate : Float64
  buckets : String → Option bucketState

/-- Constructor `NewTokenBucket`: the given parameters and an empty map. -/
def NewTokenBucket (capacity : Int) (refillRate : Float64) : TokenBucket :=
  { capacity := capacity, refillRate := refillRate, buckets := fun _ => none }

/-- Lines 40-50 of `Allow`: the bucket of `id`, made full with
`lastRefill = created` when the identifier has none. -/
def getState (tb : TokenBucket) (id : String) (created : Int) : bucketState :=
  match tb.buckets id with
  | some state => state
  | none => { tokens := float64 tb.capacity, lastRefill := created }

/-- Lines 53-58 of `Allow`: the token value after the refill step, on which
the decision is made. -/
def refilled (tb : TokenBucket) (id : String) (created now : Int) : Float64 :=
  let state := getState tb id created
  let elapsed := Seconds (Sub now state.lastRefill)
  let tokensToAdd := Float64.mul elapsed tb.refillRate
  Float64.min (Float64.add tokensToAdd state.tokens) (float64 tb.capacity)

/-- The limiter with the bucket of `id` replaced (pointer writes of `Allow`). -/
def store (tb : TokenBucket) (id : String) (state : bucketState) : TokenBucket :=
  { tb with buckets := Function.update tb.buckets id (some state) }

/-- Outcome of one call of `Allow`: the limiter afterwards and the two
returned values. -/
structure Outcome where
  tb : TokenBucket
  allowed : Bool
  remaining : Int

/-- Method `TokenBucket.Allow`. -/
def Allow (tb : TokenBucket) (id : String) (tokensRequested : Int)
    (created now : Int) : Outcome :=
  let state := getState tb id created
  let elapsed := Seconds (Sub now state.lastRefill)
  let tokensToAdd := Float64.mul elapsed tb.refillRate
  let tokens := Float64.min (Float64.add tokensToAdd state.tokens) (float64 tb.capacity)
  if Float64.le (float64 tokensRequested) tokens then
    let tokens' := Float64.sub tokens (float64 tokensRequested)
    { tb := store tb id { tokens := tokens', lastRefill := now },
      allowed := true, remaining := int tokens' }
  else
    { tb := store tb id { tokens := tokens, lastRefill := now },
      allowed := false, remaining := int tokens }

/-- One call in a sequence: identifier, requested tokens and the two clock
readings available to the call (`created` is read only when the identifier has
no bucket yet). -/
structure Call where
  id : String
  tokensRequested : Int
  created : Int
  now : Int

/-- The limiter after a call. -/
def step (tb : TokenBucket) (c : Call) : TokenBucket :=
  (Allow tb c.id c.tokensRequested c.created c.now).tb

/-- The limiter after a sequence of calls. -/
def run (tb : TokenBucket) : List Call → TokenBucket
  | [] => tb
  | c :: cs => run (step tb c) cs

/-- The `(allowed, remaining)` pairs returned by a sequence of calls. -/
def results (tb : TokenBucket) : List Call → List (Bool × Int)
  | [] => []
  | c :: cs =>
    let o := Allow tb c.id c.tokensRequested c.created c.now
    (o.allowed, o.remaining) :: results o.tb cs

/-- Clock readings of a sequence of calls never go back: starting from reading
`t`, each call reads `created` and then `now`. -/
def clockMonotone (t : Int) : List Call → Prop
  | [] => True
  | c :: cs => t ≤ c.created ∧ c.created ≤ c.now ∧ clockMonotone c.now cs

/-- Every requested amount of a sequence of calls is non-negative. -/
def requestsNonneg (cs : List Call) : Prop := ∀ c ∈ cs, 0 ≤ c.tokensRequested

/-- No bucket of the limiter holds more than `float64(capacity)` tokens: each
holds a NaN or a value that compares `<=` to it. -/
def withinCapacity (tb : TokenBucket) : Prop :=
  ∀ id s, tb.buckets id = some s →
    s.tokens = Float64.nan ∨ Float64.le s.tokens (float64 tb.capacity) = true

/-- Every bucket of the limiter holds a binary64 value between `0` and
`capacity`, and no bucket was refilled after clock reading `t`. -/
def nonnegUpTo (tb : TokenBucket) (t : Int) : Prop :=
  ∀ id s, tb.buckets id = some s →
    (∃ x : ℚ, s.tokens = Float64.fin x ∧ isFloat64 x ∧ 0 ≤ x ∧ x ≤ (tb.capacity : ℚ)) ∧
      s.lastRefill ≤ t

/-! Rounding to binary64: monotone, idempotent, exact on 53-bit values. -/

theorem roundEven_intCast (n : Int) : roundEven (n : ℚ) = n := by
  simp [roundEven]

theorem floor_le_roundEven (x : ℚ) : ⌊x⌋ ≤ roundEven x := by
  unfold roundEven
  split_ifs <;> omega

theorem roundEven_le_floor_add_one (x : ℚ) : roundEven x ≤ ⌊x⌋ + 1 := by
  unfold roundEven
  split_ifs <;> omega

theorem roundEven_mono {x y : ℚ} (h : x ≤ y) : roundEven x ≤ roundEven y := by
  rcases lt_or_eq_of_le (Int.floor_mono h) with hlt | heq
  · calc roundEven x ≤ ⌊x⌋ + 1 := roundEven_le_floor_add_one x
      _ ≤ ⌊y⌋ := hlt
      _ ≤ roundEven y := floor_le_roundEven y
  · unfold roundEven
    rw [← heq]
    split_ifs <;> first | omega | (exfalso; linarith)

theorem roundEven_nonneg {x : ℚ} (h : 0 ≤ x) : 0 ≤ roundEven x :=
  le_trans (Int.floor_nonneg.mpr h) (floor_le_roundEven x)

theorem two_zpow_pos (e : Int) : (0 : ℚ) < (2 : ℚ) ^ e := zpow_pos (by norm_num) e

theorem quantum_pos (a : ℚ) : 0 < quantum a := two_zpow_pos _

theorem lt_zpow_binade (a : ℚ) : a < (2 : ℚ) ^ (binade a + 1) := by
  have h1 : a < (2 : ℚ) ^ (Int.log 2 a + 1) := by
    have := Int.lt_zpow_succ_log_self (R := ℚ) (b := 2) (by norm_num) a
    simpa using this
  exact lt_of_lt_of_le h1 (zpow_le_zpow_right₀ (by norm_num) (by unfold binade; omega))

theorem zpow_binade_le {a : ℚ} (ha : 0 < a) (hn : -1022 ≤ Int.log 2 a) :
    (2 : ℚ) ^ binade a ≤ a := by
  have h1 : (2 : ℚ) ^ Int.log 2 a ≤ a := by
    have := Int.zpow_log_le_self (R := ℚ) (b := 2) (by norm_num) ha
    simpa using this
  have : binade a = Int.log 2 a := by unfold binade; omega
  rw [this]; exact h1

theorem top_mul_quantum (a : ℚ) : (2 : ℚ) ^ (53 : Int) * quantum a = (2 : ℚ) ^ (binade a + 1) := by
  unfold quantum
  rw [← zpow_add₀ (by norm_num : (2 : ℚ) ≠ 0)]
  congr 1; ring

theorem bot_mul_quantum (a : ℚ) : (2 : ℚ) ^ (52 : Int) * quantum a = (2 : ℚ) ^ binade a := by
  unfold quantum
  rw [← zpow_add₀ (by norm_num : (2 : ℚ) ≠ 0)]
  congr 1; ring

theorem div_quantum_lt (a : ℚ) : a / quantum a < (2 : ℚ) ^ (53 : Int) := by
  rw [div_lt_iff₀ (quantum_pos a), top_mul_quantum]
  exact lt_zpow_binade a

theorem le_div_quantum {a : ℚ} (ha : 0 < a) (hn : -1022 ≤ Int.log 2 a) :
    (2 : ℚ) ^ (52 : Int) ≤ a / quantum a := by
  rw [le_div_iff₀ (quantum_pos a), bot_mul_quantum]
  exact zpow_binade_le ha hn

theorem roundEven_div_quantum_le (a : ℚ) : roundEven (a / quantum a) ≤ 2 ^ 53 := by
  have h := roundEven_mono (le_of_lt (div_quantum_lt a))
  have h2 : ((2 : ℚ) ^ (53 : Int)) = (((2 ^ 53 : Int)) : ℚ) := by norm_num
  rw [h2, roundEven_intCast] at h
  exact h

theorem le_roundEven_div_quantum {a : ℚ} (ha : 0 < a) (hn : -1022 ≤ Int.log 2 a) :
    2 ^ 52 ≤ roundEven (a / quantum a) := by
  have h := roundEven_mono (le_div_quantum ha hn)
  have h2 : ((2 : ℚ) ^ (52 : Int)) = (((2 ^ 52 : Int)) : ℚ) := by norm_num
  rw [h2, roundEven_intCast] at h
  exact h

theorem roundMag_nonneg {a : ℚ} (ha : 0 ≤ a) : 0 ≤ roundMag a := by
  unfold roundMag
  have h1 : 0 ≤ roundEven (a / quantum a) :=
    roundEven_nonneg (div_nonneg ha (le_of_lt (quantum_pos a)))
  have h2 : (0 : ℚ) ≤ (roundEven (a / quantum a) : ℚ) := by exact_mod_cast h1
  exact mul_nonneg h2 (le_of_lt (quantum_pos a))

theorem roundMag_le_top (a : ℚ) : roundMag a ≤ (2 : ℚ) ^ (binade a + 1) := by
  unfold roundMag
  rw [← top_mul_quantum]
  have h : ((roundEven (a / quantum a) : Int) : ℚ) ≤ (2 : ℚ) ^ (53 : Int) := by
    have := roundEven_div_quantum_le a
    have h3 : ((roundEven (a / quantum a) : Int) : ℚ) ≤ (((2 ^ 53 : Int)) : ℚ) := by
      exact_mod_cast this
    have h4 : (((2 ^ 53 : Int)) : ℚ) = (2 : ℚ) ^ (53 : Int) := by norm_num
    rw [h4] at h3
    exact h3
  exact mul_le_mul_of_nonneg_right h (le_of_lt (quantum_pos a))

theorem bot_le_roundMag {a : ℚ} (ha : 0 < a) (hn : -1022 ≤ Int.log 2 a) :
    (2 : ℚ) ^ binade a ≤ roundMag a := by
  unfold roundMag
  rw [← bot_mul_quantum]
  have h : (2 : ℚ) ^ (52 : Int) ≤ ((roundEven (a / quantum a) : Int) : ℚ) := by
    have := le_roundEven_div_quantum ha hn
    have h3 : (((2 ^ 52 : Int)) : ℚ) ≤ ((roundEven (a / quantum a) : Int) : ℚ) := by
      exact_mod_cast this
    have h4 : (((2 ^ 52 : Int)) : ℚ) = (2 : ℚ) ^ (52 : Int) := by norm_num
    rw [h4] at h3
    exact h3
  exact mul_le_mul_of_nonneg_right h (le_of_lt (quantum_pos a))

theorem roundMag_zero : roundMag 0 = 0 := by
  simp [roundMag, roundEven]

theorem binade_mono {a b : ℚ} (ha : 0 < a) (h : a ≤ b) : binade a ≤ binade b := by
  have := Int.log_mono_right (b := 2) ha h
  unfold binade
  omega

theorem roundMag_mono {a b : ℚ} (ha : 0 ≤ a) (h : a ≤ b) : roundMag a ≤ roundMag b := by
  rcases eq_or_lt_of_le ha with h0 | hpos
  · rw [← h0, roundMag_zero]
    exact roundMag_nonneg (le_trans ha h)
  · rcases eq_or_lt_of_le (binade_mono hpos h) with he | hlt
    · have hq : quantum a = quantum b := by unfold quantum; rw [he]
      unfold roundMag
      rw [hq]
      have h1 : a / quantum b ≤ b / quantum b :=
        div_le_div_of_nonneg_right h (le_of_lt (quantum_pos b))
      have h2 : ((roundEven (a / quantum b) : Int) : ℚ) ≤ ((roundEven (b / quantum b) : Int) : ℚ) := by
        exact_mod_cast roundEven_mono h1
      exact mul_le_mul_of_nonneg_right h2 (le_of_lt (quantum_pos b))
    · have hb : 0 < b := lt_of_lt_of_le hpos h
      have hn : -1022 ≤ Int.log 2 b := by
        unfold binade at hlt
        omega
      calc roundMag a ≤ (2 : ℚ) ^ (binade a + 1) := roundMag_le_top a
        _ ≤ (2 : ℚ) ^ binade b := zpow_le_zpow_right₀ (by norm_num) (by omega)
        _ ≤ roundMag b := bot_le_roundMag hb hn

theorem roundMag_grid (k : Nat) (e : Int) (hk : k < 2 ^ 53) (he : -1074 ≤ e) :
    roundMag ((k : ℚ) * (2 : ℚ) ^ e) = (k : ℚ) * (2 : ℚ) ^ e := by
  rcases Nat.eq_zero_or_pos k with h0 | hpos
  · subst h0; simp [roundMag_zero]
  · have hkq : (0 : ℚ) < (k : ℚ) := by exact_mod_cast hpos
    have hapos : 0 < (k : ℚ) * (2 : ℚ) ^ e := mul_pos hkq (two_zpow_pos e)
    have hlt : (k : ℚ) * (2 : ℚ) ^ e < (2 : ℚ) ^ (e + 53) := by
      have h1 : (k : ℚ) < (2 : ℚ) ^ (53 : Int) := by
        have : (k : ℚ) < ((2 ^ 53 : Nat) : ℚ) := by exact_mod_cast hk
        have h4 : (((2 ^ 53 : Nat)) : ℚ) = (2 : ℚ) ^ (53 : Int) := by norm_num
        rwa [h4] at this
      have h2 : (2 : ℚ) ^ (e + 53) = (2 : ℚ) ^ (53 : Int) * (2 : ℚ) ^ e := by
        rw [← zpow_add₀ (by norm_num : (2 : ℚ) ≠ 0)]; congr 1; ring
      rw [h2]
      exact mul_lt_mul_of_pos_right h1 (two_zpow_pos e)
    have hlog : Int.log 2 ((k : ℚ) * (2 : ℚ) ^ e) < e + 53 := by
      have := (Int.lt_zpow_iff_log_lt (R := ℚ) (b := 2) (by norm_num) hapos (x := e + 53)).mp
        (by simpa using hlt)
      exact this
    have hbin : 0 ≤ e - (binade ((k : ℚ) * (2 : ℚ) ^ e) - 52) := by
      unfold binade; omega
    obtain ⟨j, hj⟩ := Int.eq_ofNat_of_zero_le hbin
    have hdiv : (k : ℚ) * (2 : ℚ) ^ e / quantum ((k : ℚ) * (2 : ℚ) ^ e)
        = (((k * 2 ^ j : Nat) : Int) : ℚ) := by
      unfold quantum
      rw [mul_div_assoc, ← zpow_sub₀ (by norm_num : (2 : ℚ) ≠ 0), hj, zpow_natCast]
      push_cast
      rfl
    have hq : (2 : ℚ) ^ e = (2 : ℚ) ^ (j : Int) * quantum ((k : ℚ) * (2 : ℚ) ^ e) := by
      unfold quantum
      rw [← zpow_add₀ (by norm_num : (2 : ℚ) ≠ 0)]
      congr 1; omega
    unfold roundMag
    rw [hdiv, roundEven_intCast]
    push_cast
    rw [mul_assoc, (zpow_natCast (2 : ℚ) j).symm, ← hq]

/-- Structure of a rounded magnitude: an integer of at most 53 bits times a
power of two not below `2^-1074`. -/
theorem roundMag_form (a : ℚ) (ha : 0 ≤ a) :
    ∃ (k : Nat) (e : Int), k < 2 ^ 53 ∧ -1074 ≤ e ∧ roundMag a = (k : ℚ) * (2 : ℚ) ^ e := by
  have hn0 : 0 ≤ roundEven (a / quantum a) :=
    roundEven_nonneg (div_nonneg ha (le_of_lt (quantum_pos a)))
  obtain ⟨n, hn⟩ := Int.eq_ofNat_of_zero_le hn0
  have hle := roundEven_div_quantum_le a
  have hb : -1074 ≤ binade a - 52 := by unfold binade; omega
  rcases lt_or_eq_of_le hle with hlt | heq
  · refine ⟨n, binade a - 52, by omega, hb, ?_⟩
    unfold roundMag
    rw [hn]
    rfl
  · refine ⟨2 ^ 52, binade a - 51, by norm_num, by omega, ?_⟩
    unfold roundMag
    rw [heq]
    unfold quantum
    have : (2 : ℚ) ^ (binade a - 51) = (2 : ℚ) ^ (1 : Int) * (2 : ℚ) ^ (binade a - 52) := by
      rw [← zpow_add₀ (by norm_num : (2 : ℚ) ≠ 0)]; congr 1; ring
    rw [this]
    push_cast
    ring

theorem roundMag_idem (a : ℚ) (ha : 0 ≤ a) : roundMag (roundMag a) = roundMag a := by
  obtain ⟨k, e, hk, he, h⟩ := roundMag_form a ha
  rw [h]
  exact roundMag_grid k e hk he

theorem roundMag_natCast (n : Nat) (h : n ≤ 2 ^ 53) : roundMag (n : ℚ) = n := by
  rcases lt_or_eq_of_le h with hlt | heq
  · have := roundMag_grid n 0 hlt (by norm_num)
    simpa using this
  · have := roundMag_grid (2 ^ 52) 1 (by norm_num) (by norm_num)
    subst heq
    have h2 : (((2 ^ 53 : Nat)) : ℚ) = ((2 ^ 52 : Nat) : ℚ) * (2 : ℚ) ^ (1 : Int) := by norm_num
    rw [h2]
    exact this

theorem roundMag_sub_nat (v : ℚ) (n : Nat) (hv0 : 0 ≤ v) (hv : roundMag v = v)
    (hn : (n : ℚ) ≤ v) (hle : v ≤ (2 : ℚ) ^ (53 : Nat)) : roundMag (v - n) = v - n := by
  rcases Nat.eq_zero_or_pos n with h0 | hpos
  · subst h0; simpa using hv
  obtain ⟨k, e, hk, he, h⟩ := roundMag_form v hv0
  rw [hv] at h
  rcases le_or_lt 0 e with hge | hneg
  · obtain ⟨j, hj⟩ := Int.eq_ofNat_of_zero_le hge
    have hvn : v = ((k * 2 ^ j : Nat) : ℚ) := by
      rw [h, hj, zpow_natCast]; push_cast; rfl
    have hnle : n ≤ k * 2 ^ j := by
      have : (n : ℚ) ≤ ((k * 2 ^ j : Nat) : ℚ) := by rw [← hvn]; exact hn
      exact_mod_cast this
    have hle2 : k * 2 ^ j ≤ 2 ^ 53 := by
      have : ((k * 2 ^ j : Nat) : ℚ) ≤ ((2 ^ 53 : Nat) : ℚ) := by
        rw [← hvn]; push_cast; exact hle
      exact_mod_cast this
    have hd : v - n = ((k * 2 ^ j - n : Nat) : ℚ) := by
      rw [hvn, Nat.cast_sub hnle]
    rw [hd]
    exact roundMag_natCast _ (by omega)
  · obtain ⟨m, hm⟩ := Int.eq_ofNat_of_zero_le (by omega : 0 ≤ -e)
    have hpow : (2 : ℚ) ^ e * (2 : ℚ) ^ m = 1 := by
      rw [← zpow_natCast, ← hm, ← zpow_add₀ (by norm_num : (2 : ℚ) ≠ 0)]
      simp
    have hnle : n * 2 ^ m ≤ k := by
      have h1 : (n : ℚ) * (2 : ℚ) ^ m ≤ (k : ℚ) := by
        have h2 : (n : ℚ) * (2 : ℚ) ^ m ≤ v * (2 : ℚ) ^ m :=
          mul_le_mul_of_nonneg_right hn (by positivity)
        rw [h, mul_assoc, hpow, mul_one] at h2
        exact h2
      exact_mod_cast h1
    have hd : v - n = ((k - n * 2 ^ m : Nat) : ℚ) * (2 : ℚ) ^ e := by
      rw [Nat.cast_sub hnle, sub_mul, ← h]
      push_cast
      rw [mul_assoc, mul_comm ((2 : ℚ) ^ m), hpow, mul_one]
    rw [hd]
    exact roundMag_grid _ e (by omega) he

theorem roundQ_of_nonneg {q : ℚ} (h : 0 ≤ q) :
    roundQ q = if (2 : ℚ) ^ (1024 : Int) ≤ roundMag q then Float64.posInf
      else Float64.fin (roundMag q) := by
  unfold roundQ
  rw [abs_of_nonneg h]
  simp [not_lt.mpr h]

theorem roundQ_of_neg {q : ℚ} (h : q < 0) :
    roundQ q = if (2 : ℚ) ^ (1024 : Int) ≤ roundMag (-q) then Float64.negInf
      else Float64.fin (-roundMag (-q)) := by
  unfold roundQ
  rw [abs_of_neg h]
  simp [h]

theorem roundQ_zero : roundQ 0 = Float64.fin 0 := by
  rw [roundQ_of_nonneg (le_refl 0), roundMag_zero]
  norm_num

theorem roundQ_ne_nan (q : ℚ) : roundQ q ≠ Float64.nan := by
  unfold roundQ
  split_ifs <;> simp

/-- A magnitude that rounding leaves unchanged and that is below `2^1024` is a
binary64 value. -/
theorem isFloat64_of_roundMag {q : ℚ} (h : roundMag |q| = |q|)
    (hlt : |q| < (2 : ℚ) ^ (1024 : Int)) : isFloat64 q := by
  unfold isFloat64 roundQ
  rw [h, if_neg (not_le.mpr hlt)]
  congr 1
  split_ifs with hq
  · rw [abs_of_neg hq]; ring
  · rw [abs_of_nonneg (not_lt.mp hq)]

theorem roundQ_idem {q v : ℚ} (h : roundQ q = Float64.fin v) : isFloat64 v := by
  unfold roundQ at h
  split_ifs at h with h1 h2 h2
  · have hv : v = -roundMag |q| := by injection h with h; exact h.symm
    have hnn := roundMag_nonneg (abs_nonneg q)
    apply isFloat64_of_roundMag
    · rw [hv, abs_neg, abs_of_nonneg hnn, roundMag_idem _ (abs_nonneg q)]
    · rw [hv, abs_neg, abs_of_nonneg hnn]; exact not_le.mp h1
  · have hv : v = roundMag |q| := by injection h with h; exact h.symm
    have hnn := roundMag_nonneg (abs_nonneg q)
    apply isFloat64_of_roundMag
    · rw [hv, abs_of_nonneg hnn, roundMag_idem _ (abs_nonneg q)]
    · rw [hv, abs_of_nonneg hnn]; exact not_le.mp h1

theorem isFloat64_intCast (n : Int) (h : |n| ≤ 2 ^ 53) : isFloat64 (n : ℚ) := by
  have hn : |(n : ℚ)| = ((n.natAbs : Nat) : ℚ) := by
    rw [← Int.cast_abs, Int.abs_eq_natAbs, Int.cast_natCast]
  have hb : n.natAbs ≤ 2 ^ 53 := by
    rw [Int.abs_eq_natAbs] at h
    exact_mod_cast h
  apply isFloat64_of_roundMag
  · rw [hn]; exact roundMag_natCast _ hb
  · rw [hn]
    have : ((n.natAbs : Nat) : ℚ) ≤ ((2 ^ 53 : Nat) : ℚ) := by exact_mod_cast hb
    refine lt_of_le_of_lt this ?_
    norm_num

theorem float64_of_small (n : Int) (h : |n| ≤ 2 ^ 53) : float64 n = Float64.fin (n : ℚ) :=
  isFloat64_intCast n h

theorem roundQ_mono {q r : ℚ} (h : q ≤ r) : Float64.le (roundQ q) (roundQ r) = true := by
  rcases lt_or_le q 0 with hq | hq
  · rcases lt_or_le r 0 with hr | hr
    · have hm : roundMag (-r) ≤ roundMag (-q) :=
        roundMag_mono (by linarith) (by linarith)
      rw [roundQ_of_neg hq, roundQ_of_neg hr]
      split_ifs with h1 h2 h2
      · rfl
      · rfl
      · exact absurd (le_trans h2 hm) h1
      · simp only [Float64.le, decide_eq_true_eq]; linarith
    · have hq' := roundMag_nonneg (by linarith : (0 : ℚ) ≤ -q)
      have hr' := roundMag_nonneg hr
      rw [roundQ_of_neg hq, roundQ_of_nonneg hr]
      split_ifs
      · rfl
      · rfl
      · rfl
      · simp only [Float64.le, decide_eq_true_eq]; linarith
  · have hr : 0 ≤ r := le_trans hq h
    have hm : roundMag q ≤ roundMag r := roundMag_mono hq h
    rw [roundQ_of_nonneg hq, roundQ_of_nonneg hr]
    split_ifs with h1 h2 h2
    · rfl
    · exact absurd (le_trans h1 hm) h2
    · rfl
    · simp only [Float64.le, decide_eq_true_eq]; exact hm

namespace Float64

theorem le_fin_fin {x y : ℚ} : le (fin x) (fin y) = true ↔ x ≤ y := by
  simp [le]

theorem le_trans' {a b c : Float64} (h1 : le a b = true) (h2 : le b c = true) :
    le a c = true := by
  cases a <;> cases b <;> cases c <;> simp [le] at *
  linarith

theorem le_nan_right (a : Float64) : le a nan = false := by
  cases a <;> rfl

theorem le_refl_fin (x : ℚ) : le (fin x) (fin x) = true := by
  simp [le]

theorem le_refl' {a : Float64} (h : a ≠ nan) : le a a = true := by
  cases a <;> simp [le] at *

theorem add_eq_fin {a b : Float64} {q : ℚ} (h : add a b = fin q) : isFloat64 q := by
  cases a <;> cases b <;> simp [add] at h
  exact roundQ_idem h

theorem sub_eq_fin {a b : Float64} {q : ℚ} (h : sub a b = fin q) : isFloat64 q := by
  cases a <;> cases b <;> simp [sub] at h
  exact roundQ_idem h

theorem min_eq_fin {a b : Float64} {q : ℚ} (h : min a b = fin q) : a = fin q ∨ b = fin q := by
  cases a <;> cases b <;> simp only [min] at h <;> first | (exact absurd h (by simp)) | skip
  all_goals (split at h <;> simp_all)

theorem min_le_right (a b : Float64) : min a b = nan ∨ le (min a b) b = true := by
  cases a <;> cases b <;> simp [min, le]
  rename_i x y
  by_cases h : x ≤ y <;> simp [h]

theorem min_le_left (a b : Float64) : min a b = nan ∨ le (min a b) a = true := by
  cases a <;> cases b <;> simp [min, le]
  rename_i x y
  by_cases h : x ≤ y <;> simp [h]
  exact le_of_lt (not_le.mp h)

theorem min_fin_fin (x y : ℚ) : min (fin x) (fin y) = fin (Min.min x y) := by
  simp only [min, le]
  by_cases h : x ≤ y
  · simp [h]
  · simp [h, le_of_lt (not_le.mp h)]

theorem min_posInf_fin (y : ℚ) : min posInf (fin y) = fin y := by
  simp [min, le]

end Float64

theorem isFloat64_zero : isFloat64 0 := roundQ_zero

theorem float64_eq_fin {n : Int} {q : ℚ} (h : float64 n = Float64.fin q) : isFloat64 q :=
  roundQ_idem h

theorem float64_ne_nan (n : Int) : float64 n ≠ Float64.nan := roundQ_ne_nan _

/-- A result between two binary64 values rounds to a binary64 value between
them. -/
theorem roundQ_between {q lo hi : ℚ} (hlo : isFloat64 lo) (hhi : isFloat64 hi)
    (h1 : lo ≤ q) (h2 : q ≤ hi) :
    ∃ v, roundQ q = Float64.fin v ∧ lo ≤ v ∧ v ≤ hi ∧ isFloat64 v := by
  have m1 := roundQ_mono h1
  have m2 := roundQ_mono h2
  rw [hlo] at m1
  rw [hhi] at m2
  cases hq : roundQ q with
  | nan => exact absurd hq (roundQ_ne_nan q)
  | posInf => rw [hq] at m2; simp [Float64.le] at m2
  | negInf => rw [hq] at m1; simp [Float64.le] at m1
  | fin v =>
    rw [hq] at m1 m2
    exact ⟨v, rfl, Float64.le_fin_fin.mp m1, Float64.le_fin_fin.mp m2, roundQ_idem hq⟩

/-- A result not below a binary64 value rounds to `+Inf` or to a binary64 value
not below it. -/
theorem roundQ_ge {q lo : ℚ} (hlo : isFloat64 lo) (h1 : lo ≤ q) :
    roundQ q = Float64.posInf ∨ ∃ v, roundQ q = Float64.fin v ∧ lo ≤ v ∧ isFloat64 v := by
  have m1 := roundQ_mono h1
  rw [hlo] at m1
  cases hq : roundQ q with
  | nan => exact absurd hq (roundQ_ne_nan q)
  | posInf => exact Or.inl rfl
  | negInf => rw [hq] at m1; simp [Float64.le] at m1
  | fin v =>
    rw [hq] at m1
    exact Or.inr ⟨v, rfl, Float64.le_fin_fin.mp m1, roundQ_idem hq⟩

/-- A binary64 value that is not negative is left unchanged by the rounding of
its magnitude. -/
theorem roundMag_of_isFloat64 {q : ℚ} (h : isFloat64 q) (h0 : 0 ≤ q) : roundMag q = q := by
  unfold isFloat64 at h
  rw [roundQ_of_nonneg h0] at h
  split_ifs at h
  injection h

/-- Subtracting a natural number from a binary64 value up to `2^53` is exact. -/
theorem isFloat64_sub_nat {v : ℚ} (n : Nat) (hv : isFloat64 v) (hn : (n : ℚ) ≤ v)
    (hle : v ≤ (2 : ℚ) ^ (53 : Nat)) : isFloat64 (v - n) := by
  have hv0 : 0 ≤ v := le_trans (Nat.cast_nonneg n) hn
  have hd0 : 0 ≤ v - n := sub_nonneg.mpr hn
  apply isFloat64_of_roundMag
  · rw [abs_of_nonneg hd0]
    exact roundMag_sub_nat v n hv0 (roundMag_of_isFloat64 hv hv0) hn hle
  · rw [abs_of_nonneg hd0]
    have : v - n ≤ (2 : ℚ) ^ (53 : Nat) := le_trans (sub_le_self _ (Nat.cast_nonneg n)) hle
    refine lt_of_le_of_lt this ?_
    norm_num

theorem isFloat64_of_bounds (n : Int) (h1 : -9007199254740992 ≤ n)
    (h2 : n ≤ 9007199254740992) : isFloat64 (n : ℚ) :=
  isFloat64_intCast n (abs_le.mpr ⟨by norm_num; exact h1, by norm_num; exact h2⟩)

theorem roundQ_of_bounds (n : Int) (h1 : -9007199254740992 ≤ n)
    (h2 : n ≤ 9007199254740992) : roundQ (n : ℚ) = Float64.fin (n : ℚ) :=
  isFloat64_of_bounds n h1 h2

theorem float64_of_bounds (n : Int) (h1 : -9007199254740992 ≤ n)
    (h2 : n ≤ 9007199254740992) : float64 n = Float64.fin (n : ℚ) :=
  isFloat64_of_bounds n h1 h2

theorem Sub_of_le {t u : Int} (h : u ≤ t) : 0 ≤ Sub t u ∧ Sub t u ≤ maxDuration := by
  unfold Sub
  have h1 : maxDuration = 9223372036854775807 := by norm_num [maxDuration]
  have h2 : minDuration = -9223372036854775808 := by norm_num [minDuration]
  rw [h1, h2]
  split_ifs <;> omega

theorem Sub_self (t : Int) : Sub t t = 0 := by
  unfold Sub
  have h1 : maxDuration = 9223372036854775807 := by norm_num [maxDuration]
  have h2 : minDuration = -9223372036854775808 := by norm_num [minDuration]
  rw [h1, h2]
  split_ifs <;> omega

theorem le_Sub {t u k : Int} (hk : k ≤ t - u) (hmax : k ≤ maxDuration) :
    k ≤ Sub t u := by
  unfold Sub
  split_ifs <;> omega

theorem Seconds_of_nonneg {d : Int} (h0 : 0 ≤ d) (h1 : d ≤ maxDuration) :
    ∃ e, Seconds d = Float64.fin e ∧ 0 ≤ e ∧ ((d / 1000000000 : Int) : ℚ) ≤ e := by
  have hmax : maxDuration = 9223372036854775807 := by norm_num [maxDuration]
  rw [hmax] at h1
  unfold Seconds
  rw [Int.tdiv_eq_ediv h0 (by norm_num), Int.tmod_eq_emod h0 (by norm_num)]
  have hs0 : 0 ≤ d / 1000000000 := by omega
  have hs1 : d / 1000000000 ≤ 9223372036 := by omega
  have hn0 : 0 ≤ d % 1000000000 := by omega
  have hn1 : d % 1000000000 < 1000000000 := by omega
  rw [float64_of_bounds _ (by omega) (by omega), float64_of_bounds _ (by omega) (by omega)]
  simp only [Float64.div]
  rw [if_neg (by norm_num)]
  have hq0 : (0 : ℚ) ≤ ((d % 1000000000 : Int) : ℚ) / 1000000000 := by
    have : (0 : ℚ) ≤ ((d % 1000000000 : Int) : ℚ) := by exact_mod_cast hn0
    positivity
  have hq1 : ((d % 1000000000 : Int) : ℚ) / 1000000000 ≤ ((1 : Int) : ℚ) := by
    have : ((d % 1000000000 : Int) : ℚ) ≤ 1000000000 := by exact_mod_cast le_of_lt hn1
    rw [div_le_iff₀ (by norm_num)]
    push_cast
    linarith
  have hz : isFloat64 ((0 : Int) : ℚ) := isFloat64_of_bounds 0 (by norm_num) (by norm_num)
  obtain ⟨f, hf, hf0, hf1, _⟩ := roundQ_between hz
    (isFloat64_of_bounds 1 (by norm_num) (by norm_num)) (by push_cast; exact hq0) hq1
  rw [hf]
  simp only [Float64.add]
  push_cast at hf0 hf1
  obtain ⟨e, he, he0, _, _⟩ := roundQ_between
    (isFloat64_of_bounds (d / 1000000000) (by omega) (by omega))
    (isFloat64_of_bounds (d / 1000000000 + 1) (by omega) (by omega))
    (by linarith : ((d / 1000000000 : Int) : ℚ) ≤ ((d / 1000000000 : Int) : ℚ) + f)
    (by push_cast; linarith)
  refine ⟨e, he, ?_, he0⟩
  have : (0 : ℚ) ≤ ((d / 1000000000 : Int) : ℚ) := by exact_mod_cast hs0
  linarith

/-- A whole number of seconds is converted exactly. -/
theorem Seconds_whole (k : Int) (h0 : 0 ≤ k) (h1 : k * 1000000000 ≤ maxDuration) :
    Seconds (k * 1000000000) = Float64.fin (k : ℚ) := by
  have hmax : maxDuration = 9223372036854775807 := by norm_num [maxDuration]
  rw [hmax] at h1
  unfold Seconds
  rw [Int.mul_tdiv_cancel k (by norm_num), Int.mul_tmod_left]
  rw [float64_of_bounds k (by omega) (by omega), float64_of_bounds 0 (by norm_num) (by norm_num)]
  simp only [Float64.div]
  rw [if_neg (by norm_num)]
  have h2 : roundQ (((0 : Int) : ℚ) / 1000000000) = Float64.fin 0 := by
    rw [Int.cast_zero, zero_div]; exact roundQ_zero
  rw [h2]
  simp only [Float64.add]
  rw [add_zero]
  exact isFloat64_of_bounds k (by omega) (by omega)

theorem Seconds_zero : Seconds 0 = Float64.fin 0 := by
  have := Seconds_whole 0 (le_refl 0) (by norm_num [maxDuration])
  simpa using this

theorem run_nil (tb : TokenBucket) : run tb [] = tb := rfl

theorem run_cons (tb : TokenBucket) (c : Call) (cs : List Call) :
    run tb (c :: cs) = run (step tb c) cs := rfl

theorem step_mk (tb : TokenBucket) (id : String) (n created now : Int) :
    step tb ⟨id, n, created, now⟩ = (Allow tb id n created now).tb := rfl

theorem results_nil (tb : TokenBucket) : results tb [] = [] := rfl

theorem results_cons_mk (tb : TokenBucket) (id : String) (n created now : Int)
    (cs : List Call) :
    results tb (⟨id, n, created, now⟩ :: cs) =
      ((Allow tb id n created now).allowed, (Allow tb id n created now).remaining) ::
        results (Allow tb id n created now).tb cs := rfl

theorem getState_of_none {tb : TokenBucket} {id : String} (created : Int)
    (h : tb.buckets id = none) :
    getState tb id created = { tokens := float64 tb.capacity, lastRefill := created } := by
  simp [getState, h]

theorem getState_of_some {tb : TokenBucket} {id : String} {s : bucketState} (created : Int)
    (h : tb.buckets id = some s) : getState tb id created = s := by
  simp [getState, h]

theorem refilled_of_some {tb : TokenBucket} {id : String} {s : bucketState}
    (created now : Int) (h : tb.buckets id = some s) :
    refilled tb id created now =
      Float64.min (Float64.add (Float64.mul (Seconds (Sub now s.lastRefill)) tb.refillRate)
        s.tokens) (float64 tb.capacity) := by
  unfold refilled
  rw [getState_of_some created h]

theorem refilled_of_none {tb : TokenBucket} {id : String}
    (created now : Int) (h : tb.buckets id = none) :
    refilled tb id created now =
      Float64.min (Float64.add (Float64.mul (Seconds (Sub now created)) tb.refillRate)
        (float64 tb.capacity)) (float64 tb.capacity) := by
  unfold refilled
  rw [getState_of_none created h]

theorem Allow_of_le (tb : TokenBucket) (id : String) (requested created now : Int)
    (h : Float64.le (float64 requested) (refilled tb id created now) = true) :
    Allow tb id requested created now =
      { tb := store tb id
          { tokens := Float64.sub (refilled tb id created now) (float64 requested),
            lastRefill := now },
        allowed := true,
        remaining := int (Float64.sub (refilled tb id created now) (float64 requested)) } := by
  unfold refilled at h
  simp only [Allow, refilled]
  rw [if_pos h]

theorem Allow_of_not_le (tb : TokenBucket) (id : String) (requested created now : Int)
    (h : Float64.le (float64 requested) (refilled tb id created now) = false) :
    Allow tb id requested created now =
      { tb := store tb id { tokens := refilled tb id created now, lastRefill := now },
        allowed := false,
        remaining := int (refilled tb id created now) } := by
  unfold refilled at h
  simp only [Allow, refilled]
  rw [if_neg (by rw [h]; simp)]

/-- The limiter after a call: only the bucket of `id` is written. -/
theorem Allow_tb (tb : TokenBucket) (id : String) (requested created now : Int) :
    (Allow tb id requested created now).tb =
      store tb id
        { tokens := if Float64.le (float64 requested) (refilled tb id created now) = true
            then Float64.sub (refilled tb id created now) (float64 requested)
            else refilled tb id created now,
          lastRefill := now } := by
  by_cases h : Float64.le (float64 requested) (refilled tb id created now) = true
  · rw [Allow_of_le tb id requested created now h, if_pos h]
  · rw [Allow_of_not_le tb id requested created now (by simpa using h), if_neg h]

/-- The refilled tokens are NaN or at most `float64(capacity)`. -/
theorem refilled_le_capacity (tb : TokenBucket) (id : String) (created now : Int) :
    refilled tb id created now = Float64.nan ∨
      Float64.le (refilled tb id created now) (float64 tb.capacity) = true := by
  unfold refilled
  exact Float64.min_le_right _ _

/-- A finite refilled value is a binary64 value. -/
theorem refilled_isFloat64 {tb : TokenBucket} {id : String} {created now : Int} {q : ℚ}
    (h : refilled tb id created now = Float64.fin q) : isFloat64 q := by
  unfold refilled at h
  rcases Float64.min_eq_fin h with h1 | h1
  · exact Float64.add_eq_fin h1
  · exact float64_eq_fin h1

/-- Refill with a finite rate `r ≥ 0` and a clock that did not go back: a bucket
holding a binary64 value `x ≤ float64(capacity)` is refilled to a binary64
value between `x` and `float64(capacity)`. -/
theorem refilled_bounds (tb : TokenBucket) (id : String) (created now last : Int)
    (x c r : ℚ) (hg : getState tb id created = { tokens := Float64.fin x, lastRefill := last })
    (hx : isFloat64 x) (hc : float64 tb.capacity = Float64.fin c) (hxc : x ≤ c)
    (hr : tb.refillRate = Float64.fin r) (hr0 : 0 ≤ r) (hclock : last ≤ now) :
    ∃ y, refilled tb id created now = Float64.fin y ∧ x ≤ y ∧ y ≤ c ∧ isFloat64 y := by
  have hcf : isFloat64 c := float64_eq_fin hc
  unfold refilled
  rw [hg, hc, hr]
  simp only
  obtain ⟨hd0, hd1⟩ := Sub_of_le hclock
  obtain ⟨e, he, he0, _⟩ := Seconds_of_nonneg hd0 hd1
  rw [he]
  simp only [Float64.mul]
  rcases roundQ_ge isFloat64_zero (mul_nonneg he0 hr0) with hinf | ⟨a, ha, ha0, _⟩
  · rw [hinf]
    simp only [Float64.add]
    rw [Float64.min_posInf_fin]
    exact ⟨c, rfl, hxc, le_refl c, hcf⟩
  · rw [ha]
    simp only [Float64.add]
    rcases roundQ_ge hx (by linarith : x ≤ a + x) with hinf | ⟨s, hs, hs0, hsf⟩
    · rw [hinf, Float64.min_posInf_fin]
      exact ⟨c, rfl, hxc, le_refl c, hcf⟩
    · rw [hs, Float64.min_fin_fin]
      refine ⟨Min.min s c, rfl, le_min hs0 hxc, min_le_right s c, ?_⟩
      rcases le_total s c with h | h
      · rw [min_eq_left h]; exact hsf
      · rw [min_eq_right h]; exact hcf

/-- The same refill on an identifier without a bucket gives exactly
`float64(capacity)`. -/
theorem refilled_fresh (tb : TokenBucket) (id : String) (created now : Int) (c r : ℚ)
    (hfresh : tb.buckets id = none) (hc : float64 tb.capacity = Float64.fin c)
    (hr : tb.refillRate = Float64.fin r) (hr0 : 0 ≤ r) (hclock : created ≤ now) :
    refilled tb id created now = Float64.fin c := by
  have hg : getState tb id created = { tokens := Float64.fin c, lastRefill := created } := by
    rw [getState_of_none created hfresh, hc]
  obtain ⟨y, hy, h1, h2, _⟩ := refilled_bounds tb id created now created c c r hg
    (float64_eq_fin hc) hc (le_refl c) hr hr0 hclock
  rw [hy, le_antisymm h2 h1]

theorem int_of_nonneg {q : ℚ} (h0 : 0 ≤ q) (h1 : q < 9223372036854775808) :
    int (Float64.fin q) = ⌊q⌋ := by
  have hf0 : 0 ≤ ⌊q⌋ := Int.floor_nonneg.mpr h0
  have hf1 : ⌊q⌋ < 9223372036854775808 := by
    have : ((⌊q⌋ : Int) : ℚ) < ((9223372036854775808 : Int) : ℚ) := by
      push_cast; exact lt_of_le_of_lt (Int.floor_le q) h1
    exact_mod_cast this
  simp only [int, if_pos h0]
  rw [if_pos ⟨by norm_num; omega, by norm_num; omega⟩]

theorem int_intCast (n : Int) (h0 : 0 ≤ n) (h1 : n < 9223372036854775808) :
    int (Float64.fin (n : ℚ)) = n := by
  rw [int_of_nonneg (by exact_mod_cast h0) (by exact_mod_cast h1), Int.floor_intCast]

theorem store_buckets_ne (tb : TokenBucket) {A B : String} (st : bucketState)
    (hAB : A ≠ B) : (store tb A st).buckets B = tb.buckets B := by
  simp [store, Function.update, Ne.symm hAB]

theorem store_buckets_same (tb : TokenBucket) (A : String) (st : bucketState) :
    (store tb A st).buckets A = some st := by
  simp [store]

theorem Allow_buckets_ne (tb : TokenBucket) {A B : String} (requested created now : Int)
    (hAB : A ≠ B) : (Allow tb A requested created now).tb.buckets B = tb.buckets B := by
  rw [Allow_tb]
  exact store_buckets_ne tb _ hAB

theorem Allow_capacity (tb : TokenBucket) (id : String) (requested created now : Int) :
    (Allow tb id requested created now).tb.capacity = tb.capacity := by
  rw [Allow_tb]; rfl

theorem Allow_refillRate (tb : TokenBucket) (id : String) (requested created now : Int) :
    (Allow tb id requested created now).tb.refillRate = tb.refillRate := by
  rw [Allow_tb]; rfl

theorem run_capacity (tb : TokenBucket) (cs : List Call) :
    (run tb cs).capacity = tb.capacity := by
  induction cs generalizing tb with
  | nil => rfl
  | cons c cs ih =>
    show (run (step tb c) cs).capacity = tb.capacity
    rw [ih, step, Allow_capacity]

theorem run_refillRate (tb : TokenBucket) (cs : List Call) :
    (run tb cs).refillRate = tb.refillRate := by
  induction cs generalizing tb with
  | nil => rfl
  | cons c cs ih =>
    show (run (step tb c) cs).refillRate = tb.refillRate
    rw [ih, step, Allow_refillRate]

/-- The bucket of any identifier after a call. -/
theorem Allow_buckets (tb : TokenBucket) (id id' : String) (requested created now : Int) :
    (Allow tb id requested created now).tb.buckets id' =
      if id' = id then
        some { tokens := if Float64.le (float64 requested) (refilled tb id created now) = true
                 then Float64.sub (refilled tb id created now) (float64 requested)
                 else refilled tb id created now,
               lastRefill := now }
      else tb.buckets id' := by
  rw [Allow_tb]
  by_cases h : id' = id
  · subst h; simp [store]
  · simp [store, Function.update, h]

theorem store_capacity (tb : TokenBucket) (id : String) (st : bucketState) :
    (store tb id st).capacity = tb.capacity := rfl

theorem store_refillRate (tb : TokenBucket) (id : String) (st : bucketState) :
    (store tb id st).refillRate = tb.refillRate := rfl

/-! Evaluation of the rounding at a given input. -/

theorem log_eq_of_bounds {a : ℚ} {E : Int} (h1 : (2 : ℚ) ^ E ≤ a) (h2 : a < (2 : ℚ) ^ (E + 1)) :
    Int.log 2 a = E := by
  have ha : 0 < a := lt_of_lt_of_le (two_zpow_pos E) h1
  have hlo : E ≤ Int.log 2 a :=
    (Int.zpow_le_iff_le_log (R := ℚ) (b := 2) (by norm_num) ha).mp (by simpa using h1)
  have hhi : Int.log 2 a < E + 1 :=
    (Int.lt_zpow_iff_log_lt (R := ℚ) (b := 2) (by norm_num) ha).mp (by simpa using h2)
  omega

theorem roundMag_eval {a : ℚ} (E n : Int) (h1 : (2 : ℚ) ^ E ≤ a) (h2 : a < (2 : ℚ) ^ (E + 1))
    (hE : -1022 ≤ E) (hn : roundEven (a / (2 : ℚ) ^ (E - 52)) = n) :
    roundMag a = (n : ℚ) * (2 : ℚ) ^ (E - 52) := by
  have hb : binade a = E := by
    unfold binade
    rw [log_eq_of_bounds h1 h2]
    omega
  unfold roundMag quantum
  rw [hb, hn]

theorem roundEven_eval_tie {x : ℚ} (f : Int) (h : x = (f : ℚ) + 1 / 2) :
    roundEven x = if f % 2 = 0 then f else f + 1 := by
  have hf : ⌊x⌋ = f := by
    rw [Int.floor_eq_iff, h]
    constructor <;> linarith
  unfold roundEven
  rw [hf, h]
  norm_num

theorem roundEven_eval_lt {x : ℚ} (f : Int) (h0 : (f : ℚ) ≤ x) (h1 : x < (f : ℚ) + 1 / 2) :
    roundEven x = f := by
  have hf : ⌊x⌋ = f := by
    rw [Int.floor_eq_iff]
    constructor <;> linarith
  unfold roundEven
  rw [hf, if_pos (by linarith)]

theorem roundEven_eval_gt {x : ℚ} (f : Int) (h0 : (f : ℚ) + 1 / 2 < x) (h1 : x < (f : ℚ) + 1) :
    roundEven x = f + 1 := by
  have hf : ⌊x⌋ = f := by
    rw [Int.floor_eq_iff]
    constructor <;> linarith
  unfold roundEven
  rw [hf, if_neg (by linarith), if_pos (by linarith)]

/-- Rounding of a positive value from the rounding of its magnitude. -/
theorem roundQ_eval {q v : ℚ} (hq : 0 ≤ q) (hv : roundMag q = v)
    (hfin : v < (2 : ℚ) ^ (1024 : Int)) : roundQ q = Float64.fin v := by
  rw [roundQ_of_nonneg hq, hv, if_neg (not_le.mpr hfin)]

theorem isFloat64_grid (k : Nat) (e : Int) (hk : k < 2 ^ 53) (he : -1074 ≤ e)
    (hfin : (k : ℚ) * (2 : ℚ) ^ e < (2 : ℚ) ^ (1024 : Int)) :
    isFloat64 ((k : ℚ) * (2 : ℚ) ^ e) := by
  have h0 : (0 : ℚ) ≤ (k : ℚ) * (2 : ℚ) ^ e :=
    mul_nonneg (Nat.cast_nonneg k) (le_of_lt (two_zpow_pos e))
  apply isFloat64_of_roundMag
  · rw [abs_of_nonneg h0]; exact roundMag_grid k e hk he
  · rw [abs_of_nonneg h0]; exact hfin

theorem float64_two_pow_53_add_one :
    float64 (2 ^ 53 + 1) = Float64.fin ((2 : ℚ) ^ (53 : Nat)) := by
  unfold float64
  apply roundQ_eval (by norm_num)
  · rw [roundMag_eval 53 (2 ^ 52) (by norm_num) (by norm_num) (by norm_num)
      (by rw [roundEven_eval_tie (2 ^ 52) (by norm_num)]; norm_num)]
    norm_num
  · norm_num

theorem float64_two_pow_54 : float64 (2 ^ 54) = Float64.fin ((2 : ℚ) ^ (54 : Nat)) := by
  have h := isFloat64_grid (2 ^ 52) 2 (by norm_num) (by norm_num) (by norm_num)
  unfold isFloat64 at h
  unfold float64
  norm_num at h ⊢
  exact h

theorem float64_zero : float64 0 = Float64.fin 0 := by
  have := float64_of_bounds 0 (by norm_num) (by norm_num)
  simpa using this

theorem sub_zero_of_isFloat64 {q : ℚ} (h : isFloat64 q) :
    Float64.sub (Float64.fin q) (Float64.fin 0) = Float64.fin q := by
  simp only [Float64.sub, sub_zero]
  exact h

/-- With `refillRate = +Inf` and two equal clock readings the first call for an
identifier decides on NaN (`0 * +Inf`) and is denied; the bucket keeps the NaN. -/
theorem Allow_posInf_rate (capacity n : Int) :
    Allow (NewTokenBucket capacity Float64.posInf) "u" n 0 0 =
      { tb := store (NewTokenBucket capacity Float64.posInf) "u"
          { tokens := Float64.nan, lastRefill := 0 },
        allowed := false, remaining := int Float64.nan } := by
  have hnan : refilled (NewTokenBucket capacity Float64.posInf) "u" 0 0 = Float64.nan := by
    rw [refilled_of_none 0 0 rfl, Sub_self, Seconds_zero]
    simp [NewTokenBucket, Float64.mul, Float64.add, Float64.min]
  rw [Allow_of_not_le _ _ _ _ _ (by rw [hnan]; exact Float64.le_nan_right _), hnan]

/-- Claim C1 as stated fails: on `NewTokenBucket(2^53 + 1, 1)` the first call
`Allow("u", 0)` is allowed with `remaining = 2^53`, one less than
`capacity - requested`, because `float64(2^53 + 1)` is `2^53`; and on
`NewTokenBucket(10, +Inf)`, whose rate is `≥ 0`, the first call `Allow("u", 5)`
with two equal clock readings is denied, because `0 * +Inf` is NaN. -/
theorem full_start_rounds_capacity :
    (Allow (NewTokenBucket (2 ^ 53 + 1) (Float64.fin 1)) "u" 0 0 1000).allowed = true ∧
      (Allow (NewTokenBucket (2 ^ 53 + 1) (Float64.fin 1)) "u" 0 0 1000).remaining = 2 ^ 53 ∧
      (Allow (NewTokenBucket (2 ^ 53 + 1) (Float64.fin 1)) "u" 0 0 1000).remaining
        ≠ (2 ^ 53 + 1) - 0 ∧
      (Allow (NewTokenBucket 10 Float64.posInf) "u" 5 0 0).allowed = false := by
  have hre : refilled (NewTokenBucket (2 ^ 53 + 1) (Float64.fin 1)) "u" 0 1000
      = Float64.fin ((2 : ℚ) ^ (53 : Nat)) :=
    refilled_fresh _ "u" 0 1000 _ 1 rfl float64_two_pow_53_add_one rfl (by norm_num) (by norm_num)
  have hle : Float64.le (float64 0)
      (refilled (NewTokenBucket (2 ^ 53 + 1) (Float64.fin 1)) "u" 0 1000) = true := by
    rw [hre, float64_zero, Float64.le_fin_fin]; norm_num
  have hrem : (Allow (NewTokenBucket (2 ^ 53 + 1) (Float64.fin 1)) "u" 0 0 1000).remaining
      = 2 ^ 53 := by
    rw [Allow_of_le _ _ _ _ _ hle]
    show int (Float64.sub (refilled _ "u" 0 1000) (float64 0)) = 2 ^ 53
    rw [hre, float64_zero, sub_zero_of_isFloat64 (refilled_isFloat64 hre)]
    have := int_intCast (2 ^ 53) (by norm_num) (by norm_num)
    simpa using this
  have hnan : refilled (NewTokenBucket 10 Float64.posInf) "u" 0 0 = Float64.nan := by
    rw [refilled_of_none 0 0 rfl, Sub_self, Seconds_zero]
    simp [NewTokenBucket, Float64.mul, Float64.add, Float64.min]
  refine ⟨?_, hrem, ?_, ?_⟩
  · rw [Allow_of_le _ _ _ _ _ hle]
  · rw [hrem]; norm_num
  · rw [Allow_of_not_le _ _ _ _ _ (by rw [hnan]; cases float64 5 <;> rfl)]

/-- The first call for an identifier, with `0 ≤ requested ≤ capacity ≤ 2^53`, a
finite rate `r ≥ 0` and a clock that does not go back. -/
theorem Allow_fresh (tb : TokenBucket) (id : String) (requested created now : Int) (r : ℚ)
    (hr : tb.refillRate = Float64.fin r) (hr0 : 0 ≤ r) (hfresh : tb.buckets id = none)
    (h0 : 0 ≤ requested) (hreq : requested ≤ tb.capacity)
    (hcap : tb.capacity ≤ 9007199254740992) (hclock : created ≤ now) :
    Allow tb id requested created now =
      { tb := store tb id
          { tokens := Float64.fin ((tb.capacity - requested : Int) : ℚ), lastRefill := now },
        allowed := true, remaining := tb.capacity - requested } := by
  have hc : float64 tb.capacity = Float64.fin (tb.capacity : ℚ) :=
    float64_of_bounds _ (by omega) hcap
  have hre := refilled_fresh tb id created now _ r hfresh hc hr hr0 hclock
  have hq : float64 requested = Float64.fin (requested : ℚ) :=
    float64_of_bounds _ (by omega) (by omega)
  have hle : Float64.le (float64 requested) (refilled tb id created now) = true := by
    rw [hre, hq, Float64.le_fin_fin]; exact_mod_cast hreq
  have hd : ((tb.capacity : ℚ) - (requested : ℚ)) = ((tb.capacity - requested : Int) : ℚ) := by
    push_cast; ring
  have hsub : Float64.sub (refilled tb id created now) (float64 requested)
      = Float64.fin ((tb.capacity - requested : Int) : ℚ) := by
    rw [hre, hq]
    simp only [Float64.sub]
    rw [hd, roundQ_of_bounds (tb.capacity - requested) (by omega) (by omega)]
  rw [Allow_of_le tb id requested created now hle, hsub,
    int_intCast _ (by omega) (by omega)]

/-- With no elapsed time and a finite rate, a call decides on the tokens the
bucket holds when these are a binary64 value not above `float64(capacity)`. -/
theorem refilled_zero_elapsed (tb : TokenBucket) (id : String) (created t : Int) (x c r : ℚ)
    (hg : getState tb id created = { tokens := Float64.fin x, lastRefill := t })
    (hx : isFloat64 x) (hc : float64 tb.capacity = Float64.fin c) (hxc : x ≤ c)
    (hr : tb.refillRate = Float64.fin r) : refilled tb id created t = Float64.fin x := by
  unfold refilled
  rw [hg, hc, hr]
  simp only [Sub_self, Seconds_zero, Float64.mul, zero_mul, roundQ_zero, Float64.add, zero_add]
  rw [(hx : roundQ x = Float64.fin x), Float64.min_fin_fin, min_eq_left hxc]

/-- Claim C1 (full start), amended: on a limiter with a finite `refillRate ≥ 0`
and `capacity ≤ 2^53`, for an identifier without a bucket and
`0 ≤ requested ≤ capacity`, a call whose two clock readings do not go back is
allowed and returns `capacity - requested`. -/
theorem full_start (tb : TokenBucket) (id : String) (requested created now : Int) (r : ℚ)
    (hr : tb.refillRate = Float64.fin r) (hr0 : 0 ≤ r) (hfresh : tb.buckets id = none)
    (h0 : 0 ≤ requested) (hreq : requested ≤ tb.capacity) (hcap : tb.capacity ≤ 2 ^ 53)
    (hclock : created ≤ now) :
    (Allow tb id requested created now).allowed = true ∧
      (Allow tb id requested created now).remaining = tb.capacity - requested := by
  norm_num at hcap
  rw [Allow_fresh tb id requested created now r hr hr0 hfresh h0 hreq hcap hclock]
  exact ⟨rfl, rfl⟩

/-- Claim C1 (amended) at the input of `TestTokenBucket_InitialState`: capacity 10,
rate 2, first call for 5 tokens. -/
theorem full_start_witness :
    (NewTokenBucket 10 (Float64.fin 2)).refillRate = Float64.fin 2 ∧ (0 : ℚ) ≤ 2 ∧
      (NewTokenBucket 10 (Float64.fin 2)).buckets "user:123" = none ∧
      (0 : Int) ≤ 5 ∧ (5 : Int) ≤ (NewTokenBucket 10 (Float64.fin 2)).capacity ∧
      (NewTokenBucket 10 (Float64.fin 2)).capacity ≤ 2 ^ 53 ∧ (0 : Int) ≤ 0 ∧
      (Allow (NewTokenBucket 10 (Float64.fin 2)) "user:123" 5 0 0).allowed = true ∧
      (Allow (NewTokenBucket 10 (Float64.fin 2)) "user:123" 5 0 0).remaining =
        (NewTokenBucket 10 (Float64.fin 2)).capacity - 5 :=
  ⟨rfl, by norm_num, rfl, by decide, by simp [NewTokenBucket], by norm_num [NewTokenBucket],
    by decide,
    full_start (NewTokenBucket 10 (Float64.fin 2)) "user:123" 5 0 0 2 rfl (by norm_num) rfl
      (by decide) (by simp [NewTokenBucket]) (by norm_num [NewTokenBucket]) (by decide)⟩

/-- A finite refilled value is at most `2^53` when `capacity ≤ 2^53`. -/
theorem refilled_le_two_pow_53 {tb : TokenBucket} {id : String} {created now : Int} {q : ℚ}
    (hcap : tb.capacity ≤ 9007199254740992)
    (hq : refilled tb id created now = Float64.fin q) : q ≤ 9007199254740992 := by
  rcases refilled_le_capacity tb id created now with h | h
  · rw [hq] at h; exact absurd h (by simp)
  · rw [hq] at h
    have h2 : Float64.le (float64 tb.capacity) (Float64.fin (9007199254740992 : ℚ)) = true := by
      have hm := roundQ_mono (by exact_mod_cast hcap :
        (tb.capacity : ℚ) ≤ ((9007199254740992 : Int) : ℚ))
      rw [roundQ_of_bounds 9007199254740992 (by norm_num) (by norm_num)] at hm
      simpa [float64] using hm
    have := Float64.le_trans' h h2
    exact Float64.le_fin_fin.mp this

theorem float64_one : float64 1 = Float64.fin 1 := by
  have := float64_of_bounds 1 (by norm_num) (by norm_num)
  simpa using this

theorem roundQ_two_pow_54_sub_one :
    roundQ ((2 : ℚ) ^ (54 : Nat) - 1) = Float64.fin ((2 : ℚ) ^ (54 : Nat)) := by
  apply roundQ_eval (by norm_num)
  · rw [roundMag_eval 53 (2 ^ 53) (by norm_num) (by norm_num) (by norm_num)
      (by rw [roundEven_eval_tie (2 ^ 53 - 1) (by norm_num)]; norm_num)]
    norm_num
  · norm_num

/-- Claim C2 as stated fails: on `NewTokenBucket(2^54, 1)` the first call
`Allow("u", 1)` decides on `2^54 ≥ 1` tokens and is allowed, but the
subtraction `2^54 - 1` rounds back to `2^54`: the bucket keeps `2^54` tokens and
`remaining` is `2^54`, not `2^54 - 1`. -/
theorem admission_subtraction_rounds :
    refilled (NewTokenBucket (2 ^ 54) (Float64.fin 1)) "u" 0 1000
        = Float64.fin ((2 : ℚ) ^ (54 : Nat)) ∧
      (((1 : Int) : ℚ) ≤ (2 : ℚ) ^ (54 : Nat)) ∧
      (Allow (NewTokenBucket (2 ^ 54) (Float64.fin 1)) "u" 1 0 1000).allowed = true ∧
      (Allow (NewTokenBucket (2 ^ 54) (Float64.fin 1)) "u" 1 0 1000).tb.buckets "u" =
        some { tokens := Float64.fin ((2 : ℚ) ^ (54 : Nat)), lastRefill := 1000 } ∧
      ((2 : ℚ) ^ (54 : Nat)) ≠ (2 : ℚ) ^ (54 : Nat) - ((1 : Int) : ℚ) ∧
      (Allow (NewTokenBucket (2 ^ 54) (Float64.fin 1)) "u" 1 0 1000).remaining = 2 ^ 54 ∧
      (Allow (NewTokenBucket (2 ^ 54) (Float64.fin 1)) "u" 1 0 1000).remaining
        ≠ ⌊(2 : ℚ) ^ (54 : Nat) - ((1 : Int) : ℚ)⌋ := by
  have hre : refilled (NewTokenBucket (2 ^ 54) (Float64.fin 1)) "u" 0 1000
      = Float64.fin ((2 : ℚ) ^ (54 : Nat)) :=
    refilled_fresh _ "u" 0 1000 _ 1 rfl float64_two_pow_54 rfl (by norm_num) (by norm_num)
  have hle : Float64.le (float64 1)
      (refilled (NewTokenBucket (2 ^ 54) (Float64.fin 1)) "u" 0 1000) = true := by
    rw [hre, float64_one, Float64.le_fin_fin]; norm_num
  have hsub : Float64.sub (refilled (NewTokenBucket (2 ^ 54) (Float64.fin 1)) "u" 0 1000)
      (float64 1) = Float64.fin ((2 : ℚ) ^ (54 : Nat)) := by
    rw [hre, float64_one]
    simp only [Float64.sub]
    exact roundQ_two_pow_54_sub_one
  have hrem : (Allow (NewTokenBucket (2 ^ 54) (Float64.fin 1)) "u" 1 0 1000).remaining
      = 2 ^ 54 := by
    rw [Allow_of_le _ _ _ _ _ hle]
    show int (Float64.sub (refilled _ "u" 0 1000) (float64 1)) = 2 ^ 54
    rw [hsub]
    have := int_intCast (2 ^ 54) (by norm_num) (by norm_num)
    simpa using this
  have hfl : ⌊(2 : ℚ) ^ (54 : Nat) - ((1 : Int) : ℚ)⌋ = 2 ^ 54 - 1 := by
    rw [Int.floor_eq_iff]; norm_num
  refine ⟨hre, by norm_num, ?_, ?_, by norm_num, hrem, ?_⟩
  · rw [Allow_of_le _ _ _ _ _ hle]
  · rw [Allow_of_le _ _ _ _ _ hle]
    show (store _ "u" _).buckets "u" = _
    rw [hsub]
    simp [store]
  · rw [hrem, hfl]; norm_num

/-- Claim C2 (admission step), amended with `capacity ≤ 2^53`: with
`requested ≥ 0`, when the refilled tokens `q` are at least `requested` the call
is allowed, the bucket holds exactly `q - requested`, and `remaining` is the
floor of that value, hence not above it. -/
theorem admission_step (tb : TokenBucket) (id : String) (requested created now : Int) (q : ℚ)
    (hcap : tb.capacity ≤ 2 ^ 53) (h0 : 0 ≤ requested)
    (hq : refilled tb id created now = Float64.fin q) (h : (requested : ℚ) ≤ q) :
    (Allow tb id requested created now).allowed = true ∧
      (Allow tb id requested created now).tb.buckets id =
        some { tokens := Float64.fin (q - (requested : ℚ)), lastRefill := now } ∧
      (Allow tb id requested created now).remaining = ⌊q - (requested : ℚ)⌋ ∧
      (((Allow tb id requested created now).remaining : Int) : ℚ) ≤ q - (requested : ℚ) := by
  norm_num at hcap
  have hq53 : q ≤ 9007199254740992 := refilled_le_two_pow_53 hcap hq
  have hreq53 : requested ≤ 9007199254740992 := by
    have : (requested : ℚ) ≤ ((9007199254740992 : Int) : ℚ) := by
      push_cast; exact le_trans h hq53
    exact_mod_cast this
  have hf : float64 requested = Float64.fin (requested : ℚ) :=
    float64_of_bounds _ (by omega) hreq53
  have hle : Float64.le (float64 requested) (refilled tb id created now) = true := by
    rw [hq, hf, Float64.le_fin_fin]; exact h
  obtain ⟨n, hn⟩ := Int.eq_ofNat_of_zero_le h0
  have hcast : (requested : ℚ) = (n : ℚ) := by rw [hn]; simp
  have hsub : Float64.sub (refilled tb id created now) (float64 requested)
      = Float64.fin (q - (requested : ℚ)) := by
    rw [hq, hf]
    simp only [Float64.sub]
    rw [hcast]
    exact isFloat64_sub_nat n (refilled_isFloat64 hq) (by rw [← hcast]; exact h)
      (by norm_num; exact hq53)
  have hnn : 0 ≤ q - (requested : ℚ) := sub_nonneg.mpr h
  have hreq0 : (0 : ℚ) ≤ (requested : ℚ) := by exact_mod_cast h0
  have hint : int (Float64.fin (q - (requested : ℚ))) = ⌊q - (requested : ℚ)⌋ :=
    int_of_nonneg hnn (by linarith)
  rw [Allow_of_le tb id requested created now hle, hsub]
  refine ⟨rfl, ?_, hint, ?_⟩
  · simp [store]
  · show ((int (Float64.fin (q - (requested : ℚ))) : Int) : ℚ) ≤ _
    rw [hint]
    exact Int.floor_le _

/-- Claim C2 (amended) at the first call of `TestTokenBucket_Consumption`: 3 tokens
from a full bucket of 10. -/
theorem admission_step_witness :
    (NewTokenBucket 10 (Float64.fin 2)).capacity ≤ 2 ^ 53 ∧ (0 : Int) ≤ 3 ∧
      refilled (NewTokenBucket 10 (Float64.fin 2)) "user:123" 0 0 = Float64.fin 10 ∧
      (((3 : Int) : ℚ) ≤ 10) ∧
      (Allow (NewTokenBucket 10 (Float64.fin 2)) "user:123" 3 0 0).allowed = true ∧
      (Allow (NewTokenBucket 10 (Float64.fin 2)) "user:123" 3 0 0).tb.buckets "user:123" =
        some { tokens := Float64.fin (10 - ((3 : Int) : ℚ)), lastRefill := 0 } ∧
      (Allow (NewTokenBucket 10 (Float64.fin 2)) "user:123" 3 0 0).remaining =
        ⌊(10 : ℚ) - ((3 : Int) : ℚ)⌋ ∧
      (((Allow (NewTokenBucket 10 (Float64.fin 2)) "user:123" 3 0 0).remaining : Int) : ℚ) ≤
        10 - ((3 : Int) : ℚ) := by
  have hre : refilled (NewTokenBucket 10 (Float64.fin 2)) "user:123" 0 0 = Float64.fin 10 := by
    have := refilled_fresh (NewTokenBucket 10 (Float64.fin 2)) "user:123" 0 0 10 2 rfl
      (by simpa [NewTokenBucket] using float64_of_bounds 10 (by norm_num) (by norm_num))
      rfl (by norm_num) (le_refl 0)
    exact this
  exact ⟨by norm_num [NewTokenBucket], by decide, hre, by norm_num,
    admission_step (NewTokenBucket 10 (Float64.fin 2)) "user:123" 3 0 0 10
      (by norm_num [NewTokenBucket]) (by decide) hre (by norm_num)⟩

theorem float64_two_pow_54_add_one :
    float64 (2 ^ 54 + 1) = Float64.fin ((2 : ℚ) ^ (54 : Nat)) := by
  unfold float64
  apply roundQ_eval (by norm_num)
  · rw [roundMag_eval 54 (2 ^ 52) (by norm_num) (by norm_num) (by norm_num)
      (roundEven_eval_lt (2 ^ 52) (by norm_num) (by norm_num))]
    norm_num
  · norm_num

/-- Claim C3 as stated fails: on `NewTokenBucket(2^54, 1)` the first call
`Allow("u", 2^54 + 1)` decides on `2^54` tokens, fewer than requested, but is
allowed with `remaining = 0`, because the comparison is made with
`float64(2^54 + 1)`, which is `2^54`. -/
theorem denial_compares_rounded_request :
    refilled (NewTokenBucket (2 ^ 54) (Float64.fin 1)) "u" 0 1000
        = Float64.fin ((2 : ℚ) ^ (54 : Nat)) ∧
      ((2 : ℚ) ^ (54 : Nat) < (((2 ^ 54 + 1 : Int)) : ℚ)) ∧
      (Allow (NewTokenBucket (2 ^ 54) (Float64.fin 1)) "u" (2 ^ 54 + 1) 0 1000).allowed = true ∧
      (Allow (NewTokenBucket (2 ^ 54) (Float64.fin 1)) "u" (2 ^ 54 + 1) 0 1000).remaining = 0 := by
  have hre : refilled (NewTokenBucket (2 ^ 54) (Float64.fin 1)) "u" 0 1000
      = Float64.fin ((2 : ℚ) ^ (54 : Nat)) :=
    refilled_fresh _ "u" 0 1000 _ 1 rfl float64_two_pow_54 rfl (by norm_num) (by norm_num)
  have hle : Float64.le (float64 (2 ^ 54 + 1))
      (refilled (NewTokenBucket (2 ^ 54) (Float64.fin 1)) "u" 0 1000) = true := by
    rw [hre, float64_two_pow_54_add_one, Float64.le_fin_fin]
  refine ⟨hre, by norm_num, ?_, ?_⟩
  · rw [Allow_of_le _ _ _ _ _ hle]
  · rw [Allow_of_le _ _ _ _ _ hle]
    show int (Float64.sub (refilled _ "u" 0 1000) (float64 (2 ^ 54 + 1))) = 0
    rw [hre, float64_two_pow_54_add_one]
    simp only [Float64.sub, sub_self]
    rw [roundQ_zero]
    have := int_intCast 0 (le_refl 0) (by norm_num)
    simpa using this

/-- Claim C3 (denial preserves state), amended with `|requested| ≤ 2^53`: when
the refilled tokens `q` are below `requested` the call is denied, `remaining` is
`q` truncated toward zero, which is its floor whenever `q` is not negative, and
the limiter afterwards differs from the one before only in the bucket of `id`,
which holds exactly the refilled tokens and `lastRefill = now`. -/
theorem denial_preserves_state (tb : TokenBucket) (id : String)
    (requested created now : Int) (q : ℚ) (hreq : |requested| ≤ 2 ^ 53)
    (hq : refilled tb id created now = Float64.fin q) (h : q < (requested : ℚ)) :
    (Allow tb id requested created now).allowed = false ∧
      (Allow tb id requested created now).remaining = int (Float64.fin q) ∧
      (0 ≤ q → (Allow tb id requested created now).remaining = ⌊q⌋) ∧
      (Allow tb id requested created now).tb =
        { capacity := tb.capacity, refillRate := tb.refillRate,
          buckets := Function.update tb.buckets id
            (some { tokens := Float64.fin q, lastRefill := now }) } := by
  have hf : float64 requested = Float64.fin (requested : ℚ) := float64_of_small _ hreq
  have hnle : Float64.le (float64 requested) (refilled tb id created now) = false := by
    rw [hq, hf]
    simp [Float64.le, h]
  have hr53 : (requested : ℚ) ≤ 9007199254740992 := by
    have := (abs_le.mp hreq).2
    norm_num at this
    exact_mod_cast this
  rw [Allow_of_not_le tb id requested created now hnle, hq]
  exact ⟨rfl, rfl, fun h0 => int_of_nonneg h0 (by linarith), rfl⟩

/-- Claim C3 (amended) at the input of `TestTokenBucket_Denial`: after 8 of 10
tokens were taken, 5 are requested. -/
theorem denial_preserves_state_witness :
    |(5 : Int)| ≤ 2 ^ 53 ∧
      refilled (run (NewTokenBucket 10 (Float64.fin 2)) [⟨"user:123", 8, 0, 0⟩])
        "user:123" 0 0 = Float64.fin 2 ∧
      ((2 : ℚ) < ((5 : Int) : ℚ)) ∧
      (Allow (run (NewTokenBucket 10 (Float64.fin 2)) [⟨"user:123", 8, 0, 0⟩])
        "user:123" 5 0 0).allowed = false ∧
      (Allow (run (NewTokenBucket 10 (Float64.fin 2)) [⟨"user:123", 8, 0, 0⟩])
        "user:123" 5 0 0).remaining = 2 := by
  have hrun : run (NewTokenBucket 10 (Float64.fin 2)) [⟨"user:123", 8, 0, 0⟩] =
      store (NewTokenBucket 10 (Float64.fin 2)) "user:123"
        { tokens := Float64.fin 2, lastRefill := 0 } := by
    rw [run_cons, run_nil, step_mk]
    rw [Allow_fresh _ "user:123" 8 0 0 2 rfl (by norm_num) rfl (by norm_num)
      (by norm_num [NewTokenBucket]) (by norm_num [NewTokenBucket]) (le_refl 0)]
    norm_num [NewTokenBucket]
  have hre : refilled (run (NewTokenBucket 10 (Float64.fin 2)) [⟨"user:123", 8, 0, 0⟩])
      "user:123" 0 0 = Float64.fin 2 := by
    rw [hrun]
    exact refilled_zero_elapsed _ "user:123" 0 0 2 10 2 (by simp [getState, store])
      (by simpa using isFloat64_of_bounds 2 (by norm_num) (by norm_num))
      (by simpa [store, NewTokenBucket] using float64_of_bounds 10 (by norm_num) (by norm_num))
      (by norm_num) rfl
  have key := denial_preserves_state
    (run (NewTokenBucket 10 (Float64.fin 2)) [⟨"user:123", 8, 0, 0⟩]) "user:123" 5 0 0 2
    (by norm_num) hre (by norm_num)
  refine ⟨by norm_num, hre, by norm_num, key.1, ?_⟩
  rw [key.2.2.1 (by norm_num)]
  norm_num

/-- Claim C9 as stated fails: on `NewTokenBucket(2^53, 1)` the first call
`Allow("u", 2^53 + 1)` requests more than `capacity` and is allowed, because
`float64(2^53 + 1)` is `2^53`. -/
theorem oversized_allowed_after_rounding :
    (NewTokenBucket (2 ^ 53) (Float64.fin 1)).capacity < 2 ^ 53 + 1 ∧
      (Allow (NewTokenBucket (2 ^ 53) (Float64.fin 1)) "u" (2 ^ 53 + 1) 0 1000).allowed = true := by
  have hc : float64 (NewTokenBucket (2 ^ 53) (Float64.fin 1)).capacity
      = Float64.fin ((2 : ℚ) ^ (53 : Nat)) := by
    have := float64_of_bounds (2 ^ 53) (by norm_num) (by norm_num)
    simpa [NewTokenBucket] using this
  have hre : refilled (NewTokenBucket (2 ^ 53) (Float64.fin 1)) "u" 0 1000
      = Float64.fin ((2 : ℚ) ^ (53 : Nat)) :=
    refilled_fresh _ "u" 0 1000 _ 1 rfl hc rfl (by norm_num) (by norm_num)
  have hle : Float64.le (float64 (2 ^ 53 + 1))
      (refilled (NewTokenBucket (2 ^ 53) (Float64.fin 1)) "u" 0 1000) = true := by
    rw [hre, float64_two_pow_53_add_one, Float64.le_fin_fin]
  refine ⟨by norm_num [NewTokenBucket], ?_⟩
  rw [Allow_of_le _ _ _ _ _ hle]

/-- Claim C9 (oversized requests), amended with `-2^53 ≤ capacity < 2^53`:
whatever the buckets, the refill rate and the clock readings, a call with
`requested > capacity` is denied. -/
theorem oversized_denied (tb : TokenBucket) (id : String) (requested created now : Int)
    (hlo : -2 ^ 53 ≤ tb.capacity) (hhi : tb.capacity < 2 ^ 53)
    (h : tb.capacity < requested) :
    (Allow tb id requested created now).allowed = false := by
  norm_num at hlo hhi
  have hc : float64 tb.capacity = Float64.fin (tb.capacity : ℚ) :=
    float64_of_bounds _ hlo (by omega)
  have hm : Float64.le (Float64.fin ((tb.capacity + 1 : Int) : ℚ)) (float64 requested) = true := by
    have := roundQ_mono (by exact_mod_cast (by omega : tb.capacity + 1 ≤ requested) :
      ((tb.capacity + 1 : Int) : ℚ) ≤ (requested : ℚ))
    rwa [roundQ_of_bounds (tb.capacity + 1) (by omega) (by omega)] at this
  have hnle : Float64.le (float64 requested) (refilled tb id created now) = false := by
    rcases refilled_le_capacity tb id created now with hn | hl
    · rw [hn]; exact Float64.le_nan_right _
    · by_contra hcon
      have hcon' : Float64.le (float64 requested) (refilled tb id created now) = true := by
        simpa using hcon
      have h1 := Float64.le_trans' (Float64.le_trans' hm hcon') hl
      rw [hc, Float64.le_fin_fin] at h1
      have : (tb.capacity + 1 : Int) ≤ tb.capacity := by exact_mod_cast h1
      omega
  rw [Allow_of_not_le tb id requested created now hnle]

/-- Claim C9 (amended) at a concrete input: capacity 10, 11 tokens requested five
seconds after the bucket was made. -/
theorem oversized_denied_witness :
    -2 ^ 53 ≤ (run (NewTokenBucket 10 (Float64.fin 2)) [⟨"u1", 3, 0, 0⟩]).capacity ∧
      (run (NewTokenBucket 10 (Float64.fin 2)) [⟨"u1", 3, 0, 0⟩]).capacity < 2 ^ 53 ∧
      (run (NewTokenBucket 10 (Float64.fin 2)) [⟨"u1", 3, 0, 0⟩]).capacity < 11 ∧
      (Allow (run (NewTokenBucket 10 (Float64.fin 2)) [⟨"u1", 3, 0, 0⟩]) "u1" 11
        5000000000 5000000000).allowed = false := by
  have hc : (run (NewTokenBucket 10 (Float64.fin 2)) [⟨"u1", 3, 0, 0⟩]).capacity = 10 :=
    run_capacity _ _
  exact ⟨by rw [hc]; norm_num, by rw [hc]; norm_num, by rw [hc]; norm_num,
    oversized_denied (run (NewTokenBucket 10 (Float64.fin 2)) [⟨"u1", 3, 0, 0⟩]) "u1" 11
      5000000000 5000000000 (by rw [hc]; norm_num) (by rw [hc]; norm_num)
      (by rw [hc]; norm_num)⟩

theorem Sub_of_bounds {t u : Int} (h0 : 0 ≤ t - u) (h1 : t - u < 9223372036854775808) :
    Sub t u = t - u := by
  unfold Sub
  have h2 : maxDuration = 9223372036854775807 := by norm_num [maxDuration]
  have h3 : minDuration = -9223372036854775808 := by norm_num [minDuration]
  rw [h2, h3]
  split_ifs <;> omega

/-- The literal `0.1` as a binary64 value. -/
theorem roundQ_one_tenth :
    roundQ (1 / 10) = Float64.fin (3602879701896397 / 36028797018963968) := by
  apply roundQ_eval (by norm_num)
  · rw [roundMag_eval (-4) 7205759403792794 (by norm_num) (by norm_num) (by norm_num)
      (by rw [roundEven_eval_gt 7205759403792793 (by norm_num) (by norm_num)]; norm_num)]
    norm_num
  · norm_num

/-- The product `3 * 0.1` in binary64: `0.30000000000000004`. -/
theorem roundQ_three_tenths :
    roundQ (3 * (3602879701896397 / 36028797018963968)) =
      Float64.fin (1351079888211149 / 4503599627370496) := by
  apply roundQ_eval (by norm_num)
  · rw [roundMag_eval (-2) 5404319552844596 (by norm_num) (by norm_num) (by norm_num)
      (by rw [roundEven_eval_tie 5404319552844595 (by norm_num)]; norm_num)]
    norm_num
  · norm_num

/-- On `NewTokenBucket(10, 0.1)` the bucket of `"u"` holds `0` tokens after
`Allow("u", 10)`; `Allow("u", 0)` made three seconds later leaves
`0.30000000000000004` tokens, the rounded product. -/
theorem refill_three_tenths :
    roundQ (1 / 10) = Float64.fin (3602879701896397 / 36028797018963968) ∧
      (run (NewTokenBucket 10 (Float64.fin (3602879701896397 / 36028797018963968)))
          [⟨"u", 10, 0, 0⟩]).buckets "u" = some { tokens := Float64.fin 0, lastRefill := 0 } ∧
      (Allow (run (NewTokenBucket 10 (Float64.fin (3602879701896397 / 36028797018963968)))
          [⟨"u", 10, 0, 0⟩]) "u" 0 3000000000 3000000000).tb.buckets "u" =
        some { tokens := Float64.fin (1351079888211149 / 4503599627370496),
               lastRefill := 3000000000 } := by
  have hrun : run (NewTokenBucket 10 (Float64.fin (3602879701896397 / 36028797018963968)))
      [⟨"u", 10, 0, 0⟩] =
      store (NewTokenBucket 10 (Float64.fin (3602879701896397 / 36028797018963968))) "u"
        { tokens := Float64.fin 0, lastRefill := 0 } := by
    rw [run_cons, run_nil, step_mk]
    rw [Allow_fresh _ "u" 10 0 0 _ rfl (by norm_num) rfl (by norm_num)
      (by norm_num [NewTokenBucket]) (by norm_num [NewTokenBucket]) (le_refl 0)]
    norm_num [NewTokenBucket]
  have hb : (store (NewTokenBucket 10 (Float64.fin (3602879701896397 / 36028797018963968)))
      "u" { tokens := Float64.fin 0, lastRefill := 0 }).buckets "u" =
      some { tokens := Float64.fin 0, lastRefill := 0 } := by simp [store]
  have h10 : float64 (store (NewTokenBucket 10
      (Float64.fin (3602879701896397 / 36028797018963968))) "u"
      { tokens := Float64.fin 0, lastRefill := 0 }).capacity = Float64.fin 10 := by
    simpa [store, NewTokenBucket] using float64_of_bounds 10 (by norm_num) (by norm_num)
  have hsec : Seconds (Sub 3000000000 0) = Float64.fin 3 := by
    rw [Sub_of_bounds (by norm_num) (by norm_num)]
    have := Seconds_whole 3 (by norm_num) (by norm_num [maxDuration])
    simpa using this
  have hv : isFloat64 (1351079888211149 / 4503599627370496) := roundQ_idem roundQ_three_tenths
  have hre : refilled (store (NewTokenBucket 10
      (Float64.fin (3602879701896397 / 36028797018963968))) "u"
      { tokens := Float64.fin 0, lastRefill := 0 }) "u" 3000000000 3000000000 =
      Float64.fin (1351079888211149 / 4503599627370496) := by
    rw [refilled_of_some 3000000000 3000000000 hb, h10]
    simp only [hsec]
    simp only [store, NewTokenBucket, Float64.mul, Float64.add, add_zero]
    rw [roundQ_three_tenths]
    simp only [Float64.add, add_zero]
    rw [(hv : roundQ _ = _), Float64.min_fin_fin]
    norm_num
  have hle : Float64.le (float64 0) (refilled (store (NewTokenBucket 10
      (Float64.fin (3602879701896397 / 36028797018963968))) "u"
      { tokens := Float64.fin 0, lastRefill := 0 }) "u" 3000000000 3000000000) = true := by
    rw [hre, float64_zero, Float64.le_fin_fin]; norm_num
  rw [hrun]
  refine ⟨roundQ_one_tenth, hb, ?_⟩
  rw [Allow_of_le _ _ _ _ _ hle, hre, float64_zero, sub_zero_of_isFloat64 hv]
  simp [store]

theorem isFloat64_two_pow_53_add_two : isFloat64 ((2 : ℚ) ^ (53 : Nat) + 2) := by
  have := isFloat64_grid (2 ^ 52 + 1) 1 (by norm_num) (by norm_num) (by norm_num)
  norm_num at this ⊢
  exact this

/-- On `NewTokenBucket(2^53 + 1, 1)` a bucket of `"u"` holding `2^53` tokens is
refilled to `2^53`, the value of `float64(capacity)`, by `Allow("u", 0)` made two
seconds after its `lastRefill`. -/
theorem refill_to_rounded_capacity :
    (Allow (store (NewTokenBucket (2 ^ 53 + 1) (Float64.fin 1)) "u"
        { tokens := Float64.fin ((2 : ℚ) ^ (53 : Nat)), lastRefill := 1000 })
        "u" 0 2000001000 2000001000).tb.buckets "u" =
      some { tokens := Float64.fin ((2 : ℚ) ^ (53 : Nat)), lastRefill := 2000001000 } := by
  have hb : (store (NewTokenBucket (2 ^ 53 + 1) (Float64.fin 1)) "u"
      { tokens := Float64.fin ((2 : ℚ) ^ (53 : Nat)), lastRefill := 1000 }).buckets "u" =
      some { tokens := Float64.fin ((2 : ℚ) ^ (53 : Nat)), lastRefill := 1000 } :=
    store_buckets_same _ _ _
  have hc : float64 (store (NewTokenBucket (2 ^ 53 + 1) (Float64.fin 1)) "u"
      { tokens := Float64.fin ((2 : ℚ) ^ (53 : Nat)), lastRefill := 1000 }).capacity
      = Float64.fin ((2 : ℚ) ^ (53 : Nat)) := by
    rw [store_capacity]
    exact float64_two_pow_53_add_one
  have hsec : Seconds (Sub 2000001000 1000) = Float64.fin 2 := by
    rw [Sub_of_bounds (by norm_num) (by norm_num)]
    have := Seconds_whole 2 (by norm_num) (by norm_num [maxDuration])
    norm_num at this ⊢
    exact this
  have hre : refilled (store (NewTokenBucket (2 ^ 53 + 1) (Float64.fin 1)) "u"
      { tokens := Float64.fin ((2 : ℚ) ^ (53 : Nat)), lastRefill := 1000 })
      "u" 2000001000 2000001000 = Float64.fin ((2 : ℚ) ^ (53 : Nat)) := by
    rw [refilled_of_some 2000001000 2000001000 hb, hc]
    simp only [hsec, store_refillRate]
    simp only [NewTokenBucket, Float64.mul, mul_one]
    rw [(by simpa using roundQ_of_bounds 2 (by norm_num) (by norm_num) :
      roundQ (2 : ℚ) = Float64.fin 2)]
    simp only [Float64.add]
    rw [add_comm, (isFloat64_two_pow_53_add_two : roundQ _ = _), Float64.min_fin_fin]
    norm_num
  have hle : Float64.le (float64 0) (refilled (store (NewTokenBucket (2 ^ 53 + 1)
      (Float64.fin 1)) "u" { tokens := Float64.fin ((2 : ℚ) ^ (53 : Nat)), lastRefill := 1000 })
      "u" 2000001000 2000001000) = true := by
    rw [hre, float64_zero, Float64.le_fin_fin]; norm_num
  rw [Allow_of_le _ _ _ _ _ hle, hre, float64_zero,
    sub_zero_of_isFloat64 (refilled_isFloat64 hre)]
  exact store_buckets_same _ _ _

/-- Claim C4 as stated fails. On `NewTokenBucket(10, 0.1)` the bucket of `"u"`
holds `0` tokens after `Allow("u", 10)`; `Allow("u", 0)` made three seconds
later leaves `0.30000000000000004` tokens, the rounded product, which is not
`min(capacity, 0 + 3 * refillRate)`. And on `NewTokenBucket(2^53 + 1, 1)` the
first call `Allow("u", 0)` leaves `2^53` tokens, which is `≤ capacity`; a second
`Allow("u", 0)` two seconds later leaves `2^53` tokens again, not
`min(capacity, 2^53 + 2 * 1) = 2^53 + 1`. -/
theorem refill_rounds_product :
    roundQ (1 / 10) = Float64.fin (3602879701896397 / 36028797018963968) ∧
      (run (NewTokenBucket 10 (Float64.fin (3602879701896397 / 36028797018963968)))
          [⟨"u", 10, 0, 0⟩]).buckets "u" = some { tokens := Float64.fin 0, lastRefill := 0 } ∧
      (Allow (run (NewTokenBucket 10 (Float64.fin (3602879701896397 / 36028797018963968)))
          [⟨"u", 10, 0, 0⟩]) "u" 0 3000000000 3000000000).tb.buckets "u" =
        some { tokens := Float64.fin (1351079888211149 / 4503599627370496),
               lastRefill := 3000000000 } ∧
      (1351079888211149 / 4503599627370496 : ℚ) ≠
        min (10 : ℚ) (0 + 3 * (3602879701896397 / 36028797018963968)) ∧
      (run (NewTokenBucket (2 ^ 53 + 1) (Float64.fin 1)) [⟨"u", 0, 0, 1000⟩]).buckets "u" =
        some { tokens := Float64.fin ((2 : ℚ) ^ (53 : Nat)), lastRefill := 1000 } ∧
      ((2 : ℚ) ^ (53 : Nat) ≤ (((2 ^ 53 + 1 : Int)) : ℚ)) ∧
      (Allow (run (NewTokenBucket (2 ^ 53 + 1) (Float64.fin 1)) [⟨"u", 0, 0, 1000⟩])
          "u" 0 2000001000 2000001000).tb.buckets "u" =
        some { tokens := Float64.fin ((2 : ℚ) ^ (53 : Nat)), lastRefill := 2000001000 } ∧
      ((2 : ℚ) ^ (53 : Nat)) ≠
        min ((((2 ^ 53 + 1 : Int)) : ℚ)) ((2 : ℚ) ^ (53 : Nat) + 2 * 1) := by
  have hrun : run (NewTokenBucket (2 ^ 53 + 1) (Float64.fin 1)) [⟨"u", 0, 0, 1000⟩] =
      store (NewTokenBucket (2 ^ 53 + 1) (Float64.fin 1)) "u"
        { tokens := Float64.fin ((2 : ℚ) ^ (53 : Nat)), lastRefill := 1000 } := by
    have hre : refilled (NewTokenBucket (2 ^ 53 + 1) (Float64.fin 1)) "u" 0 1000
        = Float64.fin ((2 : ℚ) ^ (53 : Nat)) :=
      refilled_fresh _ "u" 0 1000 _ 1 rfl float64_two_pow_53_add_one rfl (by norm_num)
        (by norm_num)
    have hle : Float64.le (float64 0)
        (refilled (NewTokenBucket (2 ^ 53 + 1) (Float64.fin 1)) "u" 0 1000) = true := by
      rw [hre, float64_zero, Float64.le_fin_fin]; norm_num
    rw [run_cons, run_nil, step_mk, Allow_of_le _ _ _ _ _ hle, hre, float64_zero,
      sub_zero_of_isFloat64 (refilled_isFloat64 hre)]
  obtain ⟨h1, h2, h3⟩ := refill_three_tenths
  refine ⟨h1, h2, h3, by norm_num, ?_, by norm_num, ?_, by norm_num⟩
  · rw [hrun]; exact store_buckets_same _ _ _
  · rw [hrun]; exact refill_to_rounded_capacity

/-- Claim C4 (refill with no consumption), amended: for an existing bucket
holding a binary64 value `x` with `0 ≤ x ≤ capacity ≤ 2^53`, and a finite
`refillRate = r ≥ 0`, a call `Allow(id, 0)` made when the clock has not gone
back is allowed and changes only the bucket of `id`, which then holds
`lastRefill = now` and a value `y` with `x ≤ y ≤ capacity`, computed in binary64;
`y` is exactly `min(capacity, x + k * r)` whenever the call is made a whole
number `k` of seconds after `lastRefill` and `k * r` and `x + k * r` are binary64
values. -/
theorem refill_no_consumption (tb : TokenBucket) (id : String) (created now last : Int)
    (x r : ℚ) (hs : tb.buckets id = some { tokens := Float64.fin x, lastRefill := last })
    (hx : isFloat64 x) (hx0 : 0 ≤ x) (hxc : x ≤ (tb.capacity : ℚ))
    (hcap : tb.capacity ≤ 2 ^ 53) (hr : tb.refillRate = Float64.fin r) (hr0 : 0 ≤ r)
    (ht : last ≤ now) :
    ∃ y : ℚ, (Allow tb id 0 created now).allowed = true ∧
      (Allow tb id 0 created now).tb =
        { capacity := tb.capacity, refillRate := tb.refillRate,
          buckets := Function.update tb.buckets id
            (some { tokens := Float64.fin y, lastRefill := now }) } ∧
      x ≤ y ∧ y ≤ (tb.capacity : ℚ) ∧
      (∀ k : Nat, now - last = (k : Int) * 1000000000 → (k : Int) * 1000000000 < 2 ^ 63 →
        isFloat64 ((k : ℚ) * r) → isFloat64 (x + (k : ℚ) * r) →
        y = min (tb.capacity : ℚ) (x + (k : ℚ) * r)) := by
  norm_num at hcap
  have hcap0 : 0 ≤ tb.capacity := by
    have : (0 : ℚ) ≤ (tb.capacity : ℚ) := le_trans hx0 hxc
    exact_mod_cast this
  have hc : float64 tb.capacity = Float64.fin (tb.capacity : ℚ) :=
    float64_of_bounds _ (by omega) hcap
  obtain ⟨y, hy, hxy, hyc, hyf⟩ := refilled_bounds tb id created now last x _ r
    (getState_of_some created hs) hx hc hxc hr hr0 ht
  have hle : Float64.le (float64 0) (refilled tb id created now) = true := by
    rw [hy, float64_zero, Float64.le_fin_fin]; linarith
  refine ⟨y, ?_, ?_, hxy, hyc, ?_⟩
  · rw [Allow_of_le tb id 0 created now hle]
  · rw [Allow_of_le tb id 0 created now hle, hy, float64_zero, sub_zero_of_isFloat64 hyf]
    rfl
  · intro k hk hk63 hkr hxkr
    norm_num at hk63
    have hsec : Seconds (Sub now last) = Float64.fin (k : ℚ) := by
      rw [Sub_of_bounds (by omega) (by omega), hk]
      have := Seconds_whole (k : Int) (by omega) (by norm_num [maxDuration]; omega)
      simpa using this
    have hre := refilled_of_some created now hs
    simp only [hsec, hr, hc, Float64.mul] at hre
    rw [(hkr : roundQ _ = _)] at hre
    simp only [Float64.add] at hre
    rw [add_comm, (hxkr : roundQ _ = _), Float64.min_fin_fin, hy] at hre
    injection hre with hre
    rw [hre, min_comm]

/-- Claim C4 (amended) at the input of `TestTokenBucket_Refill`: 2 tokens left
of 10, rate 5, one second later. -/
theorem refill_no_consumption_witness :
    (run (NewTokenBucket 10 (Float64.fin 5)) [⟨"user:123", 8, 0, 0⟩]).buckets "user:123" =
        some { tokens := Float64.fin 2, lastRefill := 0 } ∧
      isFloat64 2 ∧ isFloat64 ((1 : Nat) * 5) ∧ isFloat64 (2 + (1 : Nat) * 5) ∧
      (Allow (run (NewTokenBucket 10 (Float64.fin 5)) [⟨"user:123", 8, 0, 0⟩])
        "user:123" 0 1000000000 1000000000).allowed = true ∧
      (Allow (run (NewTokenBucket 10 (Float64.fin 5)) [⟨"user:123", 8, 0, 0⟩])
        "user:123" 0 1000000000 1000000000).tb.buckets "user:123" =
          some { tokens := Float64.fin 7, lastRefill := 1000000000 } := by
  have hrun : run (NewTokenBucket 10 (Float64.fin 5)) [⟨"user:123", 8, 0, 0⟩] =
      store (NewTokenBucket 10 (Float64.fin 5)) "user:123"
        { tokens := Float64.fin 2, lastRefill := 0 } := by
    rw [run_cons, run_nil, step_mk]
    rw [Allow_fresh _ "user:123" 8 0 0 5 rfl (by norm_num) rfl (by norm_num)
      (by norm_num [NewTokenBucket]) (by norm_num [NewTokenBucket]) (le_refl 0)]
    norm_num [NewTokenBucket]
  have hb : (run (NewTokenBucket 10 (Float64.fin 5)) [⟨"user:123", 8, 0, 0⟩]).buckets
      "user:123" = some { tokens := Float64.fin 2, lastRefill := 0 } := by
    rw [hrun]; simp [store]
  have h2 : isFloat64 2 := by simpa using isFloat64_of_bounds 2 (by norm_num) (by norm_num)
  have h5 : isFloat64 ((1 : Nat) * 5) := by
    simpa using isFloat64_of_bounds 5 (by norm_num) (by norm_num)
  have h7 : isFloat64 (2 + (1 : Nat) * 5) := by
    have := isFloat64_of_bounds 7 (by norm_num) (by norm_num)
    norm_num at this ⊢
    exact this
  obtain ⟨y, hy1, hy2, _, _, hy5⟩ := refill_no_consumption
    (run (NewTokenBucket 10 (Float64.fin 5)) [⟨"user:123", 8, 0, 0⟩]) "user:123" 1000000000
    1000000000 0 2 5 hb h2 (by norm_num) (by rw [hrun]; norm_num [store, NewTokenBucket])
    (by rw [hrun]; norm_num [store, NewTokenBucket]) (by rw [hrun]; rfl) (by norm_num)
    (by norm_num)
  have hy : y = 7 := by
    rw [hy5 1 (by norm_num) (by norm_num) h5 h7, hrun]
    norm_num [store, NewTokenBucket]
  refine ⟨hb, h2, h5, h7, hy1, ?_⟩
  rw [hy2, hy]
  simp

/-- The outcome of a call on `id` depends on the limiter only through
`capacity`, `refillRate` and the bucket of `id`. -/
theorem Allow_congr (tb tb' : TokenBucket) (id : String) (requested created now : Int)
    (hc : tb'.capacity = tb.capacity) (hr : tb'.refillRate = tb.refillRate)
    (hb : tb'.buckets id = tb.buckets id) :
    (Allow tb' id requested created now).allowed = (Allow tb id requested created now).allowed ∧
      (Allow tb' id requested created now).remaining =
        (Allow tb id requested created now).remaining ∧
      (Allow tb' id requested created now).tb.buckets id =
        (Allow tb id requested created now).tb.buckets id := by
  have hg : getState tb' id created = getState tb id created := by
    simp [getState, hb, hc]
  have hre : refilled tb' id created now = refilled tb id created now := by
    simp [refilled, hg, hc, hr]
  by_cases h : Float64.le (float64 requested) (refilled tb id created now) = true
  · rw [Allow_of_le tb id requested created now h,
      Allow_of_le tb' id requested created now (by rw [hre]; exact h)]
    simp [store, hre]
  · have h' : Float64.le (float64 requested) (refilled tb id created now) = false := by
      simpa using h
    rw [Allow_of_not_le tb id requested created now h',
      Allow_of_not_le tb' id requested created now (by rw [hre]; exact h')]
    simp [store, hre]

/-- Claim C7 (isolation): for distinct identifiers `A` and `B`, a call on `A`
leaves the entry of `B` in the map as it was (absent stays absent); a later
call on `B` returns the same results and leaves the same bucket of `B` as it
would without the call on `A`; and a `B` without a bucket still starts from a
full bucket. -/
theorem isolation_of_identifiers (tb : TokenBucket) (A B : String) (requested created now : Int)
    (hAB : A ≠ B) :
    (Allow tb A requested created now).tb.buckets B = tb.buckets B ∧
      (∀ n created' now' : Int,
        (Allow (Allow tb A requested created now).tb B n created' now').allowed =
            (Allow tb B n created' now').allowed ∧
          (Allow (Allow tb A requested created now).tb B n created' now').remaining =
            (Allow tb B n created' now').remaining ∧
          (Allow (Allow tb A requested created now).tb B n created' now').tb.buckets B =
            (Allow tb B n created' now').tb.buckets B) ∧
      (tb.buckets B = none →
        (Allow tb A requested created now).tb.buckets B = none ∧
        ∀ created' : Int,
          getState (Allow tb A requested created now).tb B created' =
            { tokens := float64 tb.capacity, lastRefill := created' }) := by
  have hb := Allow_buckets_ne tb requested created now hAB
  have hc := Allow_capacity tb A requested created now
  have hr := Allow_refillRate tb A requested created now
  refine ⟨hb, ?_, ?_⟩
  · intro n created' now'
    exact Allow_congr tb _ B n created' now' hc hr hb
  · intro hnone
    have hnone' : (Allow tb A requested created now).tb.buckets B = none := by
      rw [hb]; exact hnone
    refine ⟨hnone', fun created' => ?_⟩
    rw [getState_of_none created' hnone', hc]

/-- Claim C7 at the input of `TestTokenBucket_IsolatedBuckets`. -/
theorem isolation_of_identifiers_witness :
    "user:123" ≠ "user:456" ∧
      (Allow (NewTokenBucket 10 (Float64.fin 2)) "user:123" 8 0 0).tb.buckets "user:456"
        = none ∧
      (Allow (Allow (NewTokenBucket 10 (Float64.fin 2)) "user:123" 8 0 0).tb
          "user:456" 9 0 0).remaining =
        (Allow (NewTokenBucket 10 (Float64.fin 2)) "user:456" 9 0 0).remaining :=
  ⟨by decide,
    (isolation_of_identifiers (NewTokenBucket 10 (Float64.fin 2)) "user:123" "user:456"
      8 0 0 (by decide)).1,
    ((isolation_of_identifiers (NewTokenBucket 10 (Float64.fin 2)) "user:123" "user:456"
      8 0 0 (by decide)).2.1 9 0 0).2.1⟩

/-- Subtracting the conversion of a non-negative integer that compares `<=`
to a value does not raise the value. -/
theorem sub_float64_le {a : Float64} {n : Int} (h0 : 0 ≤ n)
    (hle : Float64.le (float64 n) a = true) (ha : ∀ q, a = Float64.fin q → isFloat64 q) :
    Float64.sub a (float64 n) = Float64.nan ∨
      Float64.le (Float64.sub a (float64 n)) a = true := by
  have hm : Float64.le (Float64.fin 0) (float64 n) = true := by
    have := roundQ_mono (by exact_mod_cast h0 : (0 : ℚ) ≤ (n : ℚ))
    rwa [roundQ_zero] at this
  cases hf : float64 n with
  | nan => exact absurd hf (float64_ne_nan n)
  | posInf =>
    rw [hf] at hle
    cases a <;> simp [Float64.le, Float64.sub] at hle ⊢
  | negInf => rw [hf] at hm; simp [Float64.le] at hm
  | fin ρ =>
    rw [hf] at hle hm
    have hρ : 0 ≤ ρ := Float64.le_fin_fin.mp hm
    cases a with
    | nan => simp [Float64.le] at hle
    | posInf => simp [Float64.le, Float64.sub]
    | negInf => simp [Float64.le] at hle
    | fin q =>
      right
      simp only [Float64.sub]
      have := roundQ_mono (by linarith : q - ρ ≤ q)
      rwa [(ha q rfl : roundQ q = Float64.fin q)] at this

theorem withinCapacity_step (tb : TokenBucket) (c : Call) (h : withinCapacity tb)
    (hreq : 0 ≤ c.tokensRequested) : withinCapacity (step tb c) := by
  intro id s hs
  unfold step at hs ⊢
  rw [Allow_capacity]
  rw [Allow_buckets] at hs
  split at hs
  · injection hs with hs
    subst hs
    show (if _ then _ else _) = Float64.nan ∨ Float64.le (if _ then _ else _) _ = true
    split
    · rename_i hle
      rcases sub_float64_le hreq hle (fun q hq => refilled_isFloat64 hq) with h1 | h1
      · exact Or.inl h1
      · rcases refilled_le_capacity tb c.id c.created c.now with h2 | h2
        · rw [h2, Float64.le_nan_right] at hle
          exact absurd hle (by simp)
        · exact Or.inr (Float64.le_trans' h1 h2)
    · exact refilled_le_capacity tb c.id c.created c.now
  · exact h id s hs

theorem withinCapacity_run_take (cs : List Call) (tb : TokenBucket) (h : withinCapacity tb)
    (hreq : requestsNonneg cs) (k : Nat) : withinCapacity (run tb (cs.take k)) := by
  induction cs generalizing tb k with
  | nil => simpa [run] using h
  | cons c cs ih =>
    cases k with
    | zero => simpa [run] using h
    | succ k =>
      show withinCapacity (run (step tb c) (cs.take k))
      exact ih (step tb c) (withinCapacity_step tb c h (hreq c (List.mem_cons_self c cs)))
        (fun d hd => hreq d (List.mem_cons_of_mem c hd)) k

theorem float64_two_pow_53_add_three :
    float64 (2 ^ 53 + 3) = Float64.fin ((2 : ℚ) ^ (53 : Nat) + 4) := by
  unfold float64
  apply roundQ_eval (by norm_num)
  · rw [roundMag_eval 53 (2 ^ 52 + 2) (by norm_num) (by norm_num) (by norm_num)
      (by rw [roundEven_eval_tie (2 ^ 52 + 1) (by norm_num)]; norm_num)]
    norm_num
  · norm_num

/-- The first call `Allow("u", 0)` on `NewTokenBucket(2^53 + 3, 1)`, its two
clock readings one microsecond apart. -/
theorem Allow_two_pow_53_add_three :
    Allow (NewTokenBucket (2 ^ 53 + 3) (Float64.fin 1)) "u" 0 0 1000 =
      { tb := store (NewTokenBucket (2 ^ 53 + 3) (Float64.fin 1)) "u"
          { tokens := Float64.fin ((2 : ℚ) ^ (53 : Nat) + 4), lastRefill := 1000 },
        allowed := true, remaining := 2 ^ 53 + 4 } := by
  have hre : refilled (NewTokenBucket (2 ^ 53 + 3) (Float64.fin 1)) "u" 0 1000
      = Float64.fin ((2 : ℚ) ^ (53 : Nat) + 4) :=
    refilled_fresh _ "u" 0 1000 _ 1 rfl float64_two_pow_53_add_three rfl (by norm_num) (by norm_num)
  have hle : Float64.le (float64 0)
      (refilled (NewTokenBucket (2 ^ 53 + 3) (Float64.fin 1)) "u" 0 1000) = true := by
    rw [hre, float64_zero, Float64.le_fin_fin]; norm_num
  rw [Allow_of_le _ _ _ _ _ hle, hre, float64_zero,
    sub_zero_of_isFloat64 (refilled_isFloat64 hre)]
  have := int_intCast (2 ^ 53 + 4) (by norm_num) (by norm_num)
  norm_num at this ⊢
  exact this

/-- The duration `580 ms` in seconds, as a binary64 value: `0.58`. -/
theorem Seconds_580ms :
    Seconds 580000000 = Float64.fin (5224175567749775 / 9007199254740992) := by
  have hq : roundQ (580000000 / 1000000000) =
      Float64.fin (5224175567749775 / 9007199254740992) := by
    apply roundQ_eval (by norm_num)
    · rw [roundMag_eval (-1) 5224175567749775 (by norm_num) (by norm_num) (by norm_num)
        (roundEven_eval_lt 5224175567749775 (by norm_num) (by norm_num))]
      norm_num
    · norm_num
  have h1 : Int.tdiv 580000000 1000000000 = 0 := by
    rw [Int.tdiv_eq_ediv (by norm_num) (by norm_num)]; norm_num
  have h2 : Int.tmod 580000000 1000000000 = 580000000 := by
    rw [Int.tmod_eq_emod (by norm_num) (by norm_num)]; norm_num
  unfold Seconds
  rw [h1, h2, float64_zero, float64_of_bounds 580000000 (by norm_num) (by norm_num)]
  simp only [Float64.div]
  rw [if_neg (by norm_num)]
  simp only [Int.cast_ofNat]
  rw [hq]
  simp only [Float64.add, zero_add]
  exact roundQ_idem hq

/-- The product `0.58 * 100` in binary64: `57.99999999999999`. -/
theorem roundQ_58_product :
    roundQ (5224175567749775 / 9007199254740992 * 100) =
      Float64.fin (8162774324609023 / 140737488355328) := by
  apply roundQ_eval (by norm_num)
  · rw [roundMag_eval 5 8162774324609023 (by norm_num) (by norm_num) (by norm_num)
      (roundEven_eval_lt 8162774324609023 (by norm_num) (by norm_num))]
    norm_num
  · norm_num

/-- On `NewTokenBucket(58, 100)` an emptied bucket is refilled after `580 ms` to
`57.99999999999999` tokens, so that `Allow("u", 58)` is denied with
`remaining = 57`. -/
theorem Allow_short_of_capacity :
    Allow (store (NewTokenBucket 58 (Float64.fin 100)) "u"
        { tokens := Float64.fin 0, lastRefill := 0 }) "u" 58 580000000 580000000 =
      { tb := store (store (NewTokenBucket 58 (Float64.fin 100)) "u"
            { tokens := Float64.fin 0, lastRefill := 0 }) "u"
          { tokens := Float64.fin (8162774324609023 / 140737488355328),
            lastRefill := 580000000 },
        allowed := false, remaining := 57 } := by
  have hb : (store (NewTokenBucket 58 (Float64.fin 100)) "u"
      { tokens := Float64.fin 0, lastRefill := 0 }).buckets "u" =
      some { tokens := Float64.fin 0, lastRefill := 0 } := store_buckets_same _ _ _
  have h58 : float64 58 = Float64.fin 58 := by
    simpa using float64_of_bounds 58 (by norm_num) (by norm_num)
  have hc : float64 (store (NewTokenBucket 58 (Float64.fin 100)) "u"
      { tokens := Float64.fin 0, lastRefill := 0 }).capacity = Float64.fin 58 := by
    rw [store_capacity]; exact h58
  have hsec : Seconds (Sub 580000000 0) =
      Float64.fin (5224175567749775 / 9007199254740992) := by
    rw [Sub_of_bounds (by norm_num) (by norm_num)]
    exact Seconds_580ms
  have hre : refilled (store (NewTokenBucket 58 (Float64.fin 100)) "u"
      { tokens := Float64.fin 0, lastRefill := 0 }) "u" 580000000 580000000 =
      Float64.fin (8162774324609023 / 140737488355328) := by
    rw [refilled_of_some 580000000 580000000 hb, hc]
    simp only [hsec, store_refillRate]
    simp only [NewTokenBucket, Float64.mul]
    rw [roundQ_58_product]
    simp only [Float64.add, add_zero]
    rw [(roundQ_idem roundQ_58_product : roundQ _ = _), Float64.min_fin_fin]
    norm_num
  have hnle : Float64.le (float64 58) (refilled (store (NewTokenBucket 58 (Float64.fin 100))
      "u" { tokens := Float64.fin 0, lastRefill := 0 }) "u" 580000000 580000000) = false := by
    rw [hre, h58]
    simp only [Float64.le]
    norm_num
  have hint : int (Float64.fin (8162774324609023 / 140737488355328)) = 57 := by
    rw [int_of_nonneg (by norm_num) (by norm_num), Int.floor_eq_iff]
    norm_num
  rw [Allow_of_not_le _ _ _ _ _ hnle, hre, hint]

/-- Claim C5 as stated fails. On `NewTokenBucket(2^53 + 3, 1)` the bucket made
by the first call `Allow("u", 0)` holds `2^53 + 4` tokens, more than
`capacity`, because `float64(2^53 + 3)` is `2^53 + 4`. And on
`NewTokenBucket(58, 100)` a bucket emptied by `Allow("u", 58)` has after `580 ms`
waited long enough in exact arithmetic (`0 + 0.58 * 100 ≥ 58`), but the product
is rounded to `57.99999999999999` and `Allow("u", 58)` is denied with
`remaining = 57`. -/
theorem bucket_above_capacity :
    requestsNonneg [⟨"u", 0, 0, 1000⟩] ∧
      (run (NewTokenBucket (2 ^ 53 + 3) (Float64.fin 1)) [⟨"u", 0, 0, 1000⟩]).buckets "u" =
        some { tokens := Float64.fin ((2 : ℚ) ^ (53 : Nat) + 4), lastRefill := 1000 } ∧
      ((((2 ^ 53 + 3 : Int)) : ℚ) < (2 : ℚ) ^ (53 : Nat) + 4) ∧
      requestsNonneg [⟨"u", 58, 0, 0⟩] ∧
      (run (NewTokenBucket 58 (Float64.fin 100)) [⟨"u", 58, 0, 0⟩]).buckets "u" =
        some { tokens := Float64.fin 0, lastRefill := 0 } ∧
      (((58 : Int) : ℚ) ≤ 0 + (580000000 / 1000000000 : ℚ) * 100) ∧
      (Allow (run (NewTokenBucket 58 (Float64.fin 100)) [⟨"u", 58, 0, 0⟩]) "u" 58
        580000000 580000000).allowed = false ∧
      (Allow (run (NewTokenBucket 58 (Float64.fin 100)) [⟨"u", 58, 0, 0⟩]) "u" 58
        580000000 580000000).remaining = 57 := by
  have hrun : run (NewTokenBucket 58 (Float64.fin 100)) [⟨"u", 58, 0, 0⟩] =
      store (NewTokenBucket 58 (Float64.fin 100)) "u"
        { tokens := Float64.fin 0, lastRefill := 0 } := by
    rw [run_cons, run_nil, step_mk]
    rw [Allow_fresh _ "u" 58 0 0 100 rfl (by norm_num) rfl (by norm_num)
      (by norm_num [NewTokenBucket]) (by norm_num [NewTokenBucket]) (le_refl 0)]
    norm_num [NewTokenBucket]
  refine ⟨by simp [requestsNonneg], ?_, by norm_num, by simp [requestsNonneg], ?_,
    by norm_num, ?_, ?_⟩
  · rw [run_cons, run_nil, step_mk, Allow_two_pow_53_add_three]
    exact store_buckets_same _ _ _
  · rw [hrun]; exact store_buckets_same _ _ _
  · rw [hrun, Allow_short_of_capacity]
  · rw [hrun, Allow_short_of_capacity]

theorem float64_of_int64_nonneg (n : Int) (h0 : 0 ≤ n) (h1 : n < 2 ^ 63) :
    ∃ c : ℚ, float64 n = Float64.fin c ∧ 0 ≤ c ∧ isFloat64 c := by
  have hhi : isFloat64 ((2 : ℚ) ^ (63 : Nat)) := by
    have := isFloat64_grid (2 ^ 52) 11 (by norm_num) (by norm_num) (by norm_num)
    norm_num at this ⊢
    exact this
  obtain ⟨c, hc, hc0, _, hcf⟩ := roundQ_between isFloat64_zero hhi
    (by exact_mod_cast h0 : (0 : ℚ) ≤ (n : ℚ))
    (by
      have : (n : ℚ) ≤ (((2 ^ 63 : Int)) : ℚ) := by exact_mod_cast le_of_lt h1
      norm_num at this ⊢
      exact this)
  exact ⟨c, hc, hc0, hcf⟩

/-- Claim C5 (capacity ceiling), amended: on a limiter made by `NewTokenBucket`,
for any refill rate, any clock readings and any sequence of calls with
non-negative requests, after each call (after the first `k` calls, for every
`k`) no bucket holds more than `float64(capacity)` tokens, which is `capacity`
itself when `|capacity| ≤ 2^53`; and, with `0 ≤ capacity < 2^63` and a finite
`refillRate = r ≥ 0`, a bucket of the resulting limiter with `x ≥ 0` tokens that
has waited at least `k` whole seconds with `k * r ≥ float64(capacity)` is
refilled to exactly `float64(capacity)`, so that `Allow(id, capacity)` is allowed
with `remaining = 0`. -/
theorem capacity_ceiling (capacity : Int) (refillRate : Float64) (cs : List Call)
    (hreq : requestsNonneg cs) :
    (∀ (k : Nat) (id : String) (s : bucketState),
        (run (NewTokenBucket capacity refillRate) (cs.take k)).buckets id = some s →
          s.tokens = Float64.nan ∨ Float64.le s.tokens (float64 capacity) = true) ∧
      (|capacity| ≤ 2 ^ 53 → float64 capacity = Float64.fin (capacity : ℚ)) ∧
      (∀ (id : String) (x r : ℚ) (last created now : Int) (k : Nat),
        (run (NewTokenBucket capacity refillRate) cs).buckets id =
          some { tokens := Float64.fin x, lastRefill := last } →
        0 ≤ x → 0 ≤ capacity → capacity < 2 ^ 63 →
        refillRate = Float64.fin r → 0 ≤ r →
        (k : Int) * 1000000000 ≤ now - last → (k : Int) * 1000000000 < 2 ^ 63 →
        Float64.le (float64 capacity) (Float64.fin ((k : ℚ) * r)) = true →
          refilled (run (NewTokenBucket capacity refillRate) cs) id created now
              = float64 capacity ∧
            (Allow (run (NewTokenBucket capacity refillRate) cs) id capacity
              created now).allowed = true ∧
            (Allow (run (NewTokenBucket capacity refillRate) cs) id capacity
              created now).remaining = 0) := by
  have h0 : withinCapacity (NewTokenBucket capacity refillRate) := by
    intro id s hs
    simp [NewTokenBucket] at hs
  refine ⟨?_, fun h => float64_of_small capacity h, ?_⟩
  · intro k id s hs
    have := withinCapacity_run_take cs _ h0 hreq k id s hs
    rwa [run_capacity] at this
  · intro id x r last created now k hs hx0 hc0 hc63 hr hr0 hk hk63 hlong
    obtain ⟨c, hc, _, hcf⟩ := float64_of_int64_nonneg capacity hc0 hc63
    rw [hc, Float64.le_fin_fin] at hlong
    norm_num at hk63
    have hmax : maxDuration = 9223372036854775807 := by norm_num [maxDuration]
    have hd : (k : Int) * 1000000000 ≤ Sub now last := le_Sub hk (by rw [hmax]; omega)
    obtain ⟨hd0, hd1⟩ : 0 ≤ Sub now last ∧ Sub now last ≤ maxDuration :=
      Sub_of_le (by omega)
    obtain ⟨e, he, he0, hesec⟩ := Seconds_of_nonneg hd0 hd1
    have hke : (k : ℚ) ≤ e := by
      have h1 : (k : Int) ≤ Sub now last / 1000000000 := by omega
      have h2 : ((k : Int) : ℚ) ≤ ((Sub now last / 1000000000 : Int) : ℚ) := by
        exact_mod_cast h1
      push_cast at h2
      exact le_trans h2 hesec
    have hce : c ≤ e * r := le_trans hlong (mul_le_mul_of_nonneg_right hke hr0)
    have hre : refilled (run (NewTokenBucket capacity refillRate) cs) id created now
        = Float64.fin c := by
      rw [refilled_of_some created now hs, run_capacity, run_refillRate]
      simp only [NewTokenBucket, hr, hc, he, Float64.mul]
      rcases roundQ_ge hcf hce with hinf | ⟨a, ha, hac, _⟩
      · rw [hinf]
        simp only [Float64.add]
        exact Float64.min_posInf_fin c
      · rw [ha]
        simp only [Float64.add]
        rcases roundQ_ge hcf (by linarith : c ≤ a + x) with hinf | ⟨s, hs', hsc, _⟩
        · rw [hinf]; exact Float64.min_posInf_fin c
        · rw [hs', Float64.min_fin_fin, min_eq_right hsc]
    have hcap' : (run (NewTokenBucket capacity refillRate) cs).capacity = capacity :=
      run_capacity _ cs
    have hle : Float64.le (float64 capacity)
        (refilled (run (NewTokenBucket capacity refillRate) cs) id created now) = true := by
      rw [hre, hc]; exact Float64.le_refl_fin c
    refine ⟨by rw [hre, hc], ?_, ?_⟩
    · rw [Allow_of_le _ id capacity created now hle]
    · rw [Allow_of_le _ id capacity created now hle, hre, hc]
      show int (Float64.sub (Float64.fin c) (Float64.fin c)) = 0
      simp only [Float64.sub, sub_self]
      rw [roundQ_zero]
      have := int_intCast 0 (le_refl 0) (by norm_num)
      simpa using this

/-- Claim C5 (amended) at the input of `TestTokenBucket_CapacityLimit`: 9 tokens
left of 10, rate 100, one second later. -/
theorem capacity_ceiling_witness :
    requestsNonneg [⟨"user:123", 1, 0, 0⟩] ∧
      (run (NewTokenBucket 10 (Float64.fin 100)) [⟨"user:123", 1, 0, 0⟩]).buckets "user:123" =
        some { tokens := Float64.fin 9, lastRefill := 0 } ∧
      (Allow (run (NewTokenBucket 10 (Float64.fin 100)) [⟨"user:123", 1, 0, 0⟩]) "user:123" 10
        1000000000 1000000000).allowed = true ∧
      (Allow (run (NewTokenBucket 10 (Float64.fin 100)) [⟨"user:123", 1, 0, 0⟩]) "user:123" 10
        1000000000 1000000000).remaining = 0 := by
  have hreq : requestsNonneg [⟨"user:123", 1, 0, 0⟩] := by simp [requestsNonneg]
  have hb : (run (NewTokenBucket 10 (Float64.fin 100)) [⟨"user:123", 1, 0, 0⟩]).buckets
      "user:123" = some { tokens := Float64.fin 9, lastRefill := 0 } := by
    rw [run_cons, run_nil, step_mk]
    rw [Allow_fresh _ "user:123" 1 0 0 100 rfl (by norm_num) rfl (by norm_num)
      (by norm_num [NewTokenBucket]) (by norm_num [NewTokenBucket]) (le_refl 0)]
    norm_num [NewTokenBucket, store]
  have key := (capacity_ceiling 10 (Float64.fin 100) [⟨"user:123", 1, 0, 0⟩] hreq).2.2
    "user:123" 9 100 0 1000000000 1000000000 1 hb (by norm_num) (by norm_num) (by norm_num) rfl
    (by norm_num) (by norm_num) (by norm_num)
    (by rw [float64_of_bounds 10 (by norm_num) (by norm_num), Float64.le_fin_fin]; norm_num)
  exact ⟨hreq, hb, key.2.1, key.2.2⟩

/-- Outcome of a call with a non-negative request on a bucket holding a
binary64 value `x` with `0 ≤ x ≤ capacity ≤ 2^53`, a finite rate `r ≥ 0` and a
clock that did not go back: the bucket then holds a binary64 value `z` between
`0` and `capacity`, and `remaining` is its floor. -/
theorem call_outcome (tb : TokenBucket) (id : String) (requested created now last : Int)
    (x r : ℚ) (hcap : tb.capacity ≤ 9007199254740992)
    (hg : getState tb id created = { tokens := Float64.fin x, lastRefill := last })
    (hx : isFloat64 x) (hx0 : 0 ≤ x) (hxc : x ≤ (tb.capacity : ℚ))
    (hr : tb.refillRate = Float64.fin r) (hr0 : 0 ≤ r) (hclock : last ≤ now)
    (hreq : 0 ≤ requested) :
    ∃ z : ℚ, isFloat64 z ∧ 0 ≤ z ∧ z ≤ (tb.capacity : ℚ) ∧
      (Allow tb id requested created now).tb =
        store tb id { tokens := Float64.fin z, lastRefill := now } ∧
      (Allow tb id requested created now).remaining = ⌊z⌋ := by
  have hcap0 : 0 ≤ tb.capacity := by
    have : (0 : ℚ) ≤ (tb.capacity : ℚ) := le_trans hx0 hxc
    exact_mod_cast this
  have hcq : (tb.capacity : ℚ) ≤ 9007199254740992 := by exact_mod_cast hcap
  have hc : float64 tb.capacity = Float64.fin (tb.capacity : ℚ) :=
    float64_of_bounds _ (by omega) hcap
  obtain ⟨y, hy, hxy, hyc, hyf⟩ := refilled_bounds tb id created now last x _ r
    hg hx hc hxc hr hr0 hclock
  by_cases hle : Float64.le (float64 requested) (refilled tb id created now) = true
  · have hm : Float64.le (Float64.fin 0) (float64 requested) = true := by
      have := roundQ_mono (by exact_mod_cast hreq : (0 : ℚ) ≤ (requested : ℚ))
      rwa [roundQ_zero] at this
    rw [Allow_of_le tb id requested created now hle]
    rw [hy] at hle ⊢
    cases hf : float64 requested with
    | nan => exact absurd hf (float64_ne_nan requested)
    | posInf => rw [hf] at hle; simp [Float64.le] at hle
    | negInf => rw [hf] at hm; simp [Float64.le] at hm
    | fin ρ =>
      rw [hf] at hle hm
      have hρ0 : 0 ≤ ρ := Float64.le_fin_fin.mp hm
      have hρy : ρ ≤ y := Float64.le_fin_fin.mp hle
      obtain ⟨z, hz, hz0, hzy, hzf⟩ := roundQ_between isFloat64_zero hyf
        (by linarith : (0 : ℚ) ≤ y - ρ) (by linarith : y - ρ ≤ y)
      refine ⟨z, hzf, hz0, le_trans hzy hyc, ?_, ?_⟩
      · simp only [Float64.sub, hz]
      · simp only [Float64.sub, hz]
        exact int_of_nonneg hz0 (by linarith)
  · have hle' : Float64.le (float64 requested) (refilled tb id created now) = false := by
      simpa using hle
    rw [Allow_of_not_le tb id requested created now hle', hy]
    exact ⟨y, hyf, le_trans hx0 hxy, hyc, rfl, int_of_nonneg (le_trans hx0 hxy) (by linarith)⟩

/-- The bucket read by a call on a limiter that satisfies `nonnegUpTo`. -/
theorem getState_of_nonnegUpTo (tb : TokenBucket) (id : String) (t created : Int)
    (hcap0 : 0 ≤ tb.capacity) (hcap : tb.capacity ≤ 9007199254740992)
    (h : nonnegUpTo tb t) (h1 : t ≤ created) :
    ∃ (x : ℚ) (last : Int),
      getState tb id created = { tokens := Float64.fin x, lastRefill := last } ∧
        isFloat64 x ∧ 0 ≤ x ∧ x ≤ (tb.capacity : ℚ) ∧ last ≤ created := by
  cases hb : tb.buckets id with
  | none =>
    refine ⟨(tb.capacity : ℚ), created, ?_, isFloat64_of_bounds _ (by omega) hcap,
      by exact_mod_cast hcap0, le_refl _, le_refl _⟩
    rw [getState_of_none created hb, float64_of_bounds _ (by omega) hcap]
  | some s =>
    obtain ⟨⟨x, hx, hxf, hx0, hxc⟩, hl⟩ := h id s hb
    refine ⟨x, s.lastRefill, ?_, hxf, hx0, hxc, le_trans hl h1⟩
    rw [getState_of_some created hb]
    cases s
    simp only at hx
    rw [hx]

theorem step_nonneg (tb : TokenBucket) (c : Call) (t : Int) (r : ℚ)
    (hcap0 : 0 ≤ tb.capacity) (hcap : tb.capacity ≤ 9007199254740992)
    (hr : tb.refillRate = Float64.fin r) (hr0 : 0 ≤ r) (h : nonnegUpTo tb t)
    (h1 : t ≤ c.created) (h2 : c.created ≤ c.now) (hreq : 0 ≤ c.tokensRequested) :
    nonnegUpTo (step tb c) c.now ∧
      0 ≤ (Allow tb c.id c.tokensRequested c.created c.now).remaining ∧
      (Allow tb c.id c.tokensRequested c.created c.now).remaining ≤ tb.capacity := by
  obtain ⟨x, last, hg, hxf, hx0, hxc, hl⟩ :=
    getState_of_nonnegUpTo tb c.id t c.created hcap0 hcap h h1
  obtain ⟨z, hzf, hz0, hzc, htb, hrem⟩ := call_outcome tb c.id c.tokensRequested c.created
    c.now last x r hcap hg hxf hx0 hxc hr hr0 (le_trans hl h2) hreq
  refine ⟨?_, ?_, ?_⟩
  · intro id s hs
    unfold step at hs ⊢
    rw [htb] at hs ⊢
    by_cases hid : id = c.id
    · subst hid
      rw [store_buckets_same] at hs
      injection hs with hs
      subst hs
      exact ⟨⟨z, rfl, hzf, hz0, hzc⟩, le_refl _⟩
    · rw [store_buckets_ne tb _ (Ne.symm hid)] at hs
      obtain ⟨hx, hlr⟩ := h id s hs
      exact ⟨hx, le_trans hlr (le_trans h1 h2)⟩
  · rw [hrem]; exact Int.floor_nonneg.mpr hz0
  · rw [hrem]
    have : ((⌊z⌋ : Int) : ℚ) ≤ (tb.capacity : ℚ) := le_trans (Int.floor_le z) hzc
    exact_mod_cast this

theorem nonneg_run_take (cs : List Call) (tb : TokenBucket) (t : Int) (r : ℚ)
    (hcap0 : 0 ≤ tb.capacity) (hcap : tb.capacity ≤ 9007199254740992)
    (hr : tb.refillRate = Float64.fin r) (hr0 : 0 ≤ r) (h : nonnegUpTo tb t)
    (hclock : clockMonotone t cs) (hreq : requestsNonneg cs) (k : Nat) :
    ∀ id s, (run tb (cs.take k)).buckets id = some s →
      ∃ x : ℚ, s.tokens = Float64.fin x ∧ 0 ≤ x := by
  induction cs generalizing tb t k with
  | nil =>
    intro id s hs
    obtain ⟨⟨x, hx, _, hx0, _⟩, _⟩ := h id s (by simpa [run] using hs)
    exact ⟨x, hx, hx0⟩
  | cons c cs ih =>
    cases k with
    | zero =>
      intro id s hs
      obtain ⟨⟨x, hx, _, hx0, _⟩, _⟩ := h id s (by simpa [run] using hs)
      exact ⟨x, hx, hx0⟩
    | succ k =>
      obtain ⟨h1, h2, h3⟩ := hclock
      have hst := (step_nonneg tb c t r hcap0 hcap hr hr0 h h1 h2
        (hreq c (List.mem_cons_self c cs))).1
      show ∀ id s, (run (step tb c) (cs.take k)).buckets id = some s → _
      exact ih (step tb c) c.now (by unfold step; rw [Allow_capacity]; exact hcap0)
        (by unfold step; rw [Allow_capacity]; exact hcap)
        (by unfold step; rw [Allow_refillRate]; exact hr) hst h3
        (fun d hd => hreq d (List.mem_cons_of_mem c hd)) k

theorem results_bounds (cs : List Call) (tb : TokenBucket) (t : Int) (r : ℚ)
    (hcap0 : 0 ≤ tb.capacity) (hcap : tb.capacity ≤ 9007199254740992)
    (hr : tb.refillRate = Float64.fin r) (hr0 : 0 ≤ r) (h : nonnegUpTo tb t)
    (hclock : clockMonotone t cs) (hreq : requestsNonneg cs) :
    ∀ p ∈ results tb cs, 0 ≤ p.2 ∧ p.2 ≤ tb.capacity := by
  induction cs generalizing tb t with
  | nil => intro p hp; simp [results] at hp
  | cons c cs ih =>
    obtain ⟨h1, h2, h3⟩ := hclock
    obtain ⟨hst, hr1, hr2⟩ := step_nonneg tb c t r hcap0 hcap hr hr0 h h1 h2
      (hreq c (List.mem_cons_self c cs))
    intro p hp
    simp only [results, List.mem_cons] at hp
    rcases hp with hp | hp
    · subst hp
      exact ⟨hr1, hr2⟩
    · have := ih (Allow tb c.id c.tokensRequested c.created c.now).tb c.now
        (by rw [Allow_capacity]; exact hcap0) (by rw [Allow_capacity]; exact hcap)
        (by rw [Allow_refillRate]; exact hr) hst h3
        (fun d hd => hreq d (List.mem_cons_of_mem c hd)) p hp
      rwa [Allow_capacity] at this

/-- Claim C6 as stated fails. On `NewTokenBucket(2^53 + 3, 1)`, with
`capacity > 0` and `refillRate > 0`, the first call `Allow("u", 0)` returns
`remaining = 2^53 + 4`, above `capacity`, because `float64(2^53 + 3)` is
`2^53 + 4`. And on `NewTokenBucket(10, +Inf)`, whose rate is `> 0`, the first
call `Allow("u", 5)` with two equal clock readings leaves a NaN in the bucket,
which is not `≥ 0`. -/
theorem remaining_above_capacity :
    (0 : Int) < 2 ^ 53 + 3 ∧ (0 : ℚ) < 1 ∧ requestsNonneg [⟨"u", 0, 0, 1000⟩] ∧
      clockMonotone 0 [⟨"u", 0, 0, 1000⟩] ∧
      results (NewTokenBucket (2 ^ 53 + 3) (Float64.fin 1)) [⟨"u", 0, 0, 1000⟩]
        = [(true, 2 ^ 53 + 4)] ∧
      ¬ ((2 : Int) ^ 53 + 4 ≤ 2 ^ 53 + 3) ∧
      Float64.le (Float64.fin 0) Float64.posInf = true ∧
      requestsNonneg [⟨"u", 5, 0, 0⟩] ∧ clockMonotone 0 [⟨"u", 5, 0, 0⟩] ∧
      (run (NewTokenBucket 10 Float64.posInf) [⟨"u", 5, 0, 0⟩]).buckets "u" =
        some { tokens := Float64.nan, lastRefill := 0 } ∧
      Float64.le (Float64.fin 0) Float64.nan = false := by
  refine ⟨by norm_num, by norm_num, by simp [requestsNonneg], by simp [clockMonotone], ?_,
    by norm_num, rfl, by simp [requestsNonneg], by simp [clockMonotone], ?_, rfl⟩
  · rw [results_cons_mk, results_nil, Allow_two_pow_53_add_three]
  · rw [run_cons, run_nil, step_mk, Allow_posInf_rate]
    exact store_buckets_same _ _ _

/-- Claim C6 (non-negativity), amended with `capacity ≤ 2^53` and a finite rate:
on a limiter made by `NewTokenBucket` with `0 < capacity ≤ 2^53` and a finite
`refillRate = r > 0`, for any sequence of calls with non-negative requests whose
clock readings do not go back, every bucket holds a finite value `≥ 0` after
each call (after the first `k` calls, for every `k`) and every returned
`remaining` lies between `0` and `capacity`. -/
theorem non_negativity (capacity : Int) (r : ℚ) (t0 : Int) (cs : List Call)
    (hcap : 0 < capacity) (hcap53 : capacity ≤ 2 ^ 53) (hrate : 0 < r)
    (hreq : requestsNonneg cs) (hclock : clockMonotone t0 cs) :
    (∀ (k : Nat) (id : String) (s : bucketState),
        (run (NewTokenBucket capacity (Float64.fin r)) (cs.take k)).buckets id = some s →
          ∃ x : ℚ, s.tokens = Float64.fin x ∧ 0 ≤ x) ∧
      (∀ p ∈ results (NewTokenBucket capacity (Float64.fin r)) cs,
        0 ≤ p.2 ∧ p.2 ≤ capacity) := by
  norm_num at hcap53
  have h0 : nonnegUpTo (NewTokenBucket capacity (Float64.fin r)) t0 := by
    intro id s hs
    simp [NewTokenBucket] at hs
  exact ⟨fun k => nonneg_run_take cs _ t0 r (le_of_lt hcap) hcap53 rfl (le_of_lt hrate) h0
      hclock hreq k,
    results_bounds cs _ t0 r (le_of_lt hcap) hcap53 rfl (le_of_lt hrate) h0 hclock hreq⟩

/-- Claim C6 (amended) at the input of `TestTokenBucket_Denial`, the second call
one second later. -/
theorem non_negativity_witness :
    (0 : Int) < 10 ∧ (10 : Int) ≤ 2 ^ 53 ∧ (0 : ℚ) < 2 ∧
      requestsNonneg [⟨"user:123", 8, 0, 0⟩, ⟨"user:123", 5, 1000000000, 1000000000⟩] ∧
      clockMonotone 0 [⟨"user:123", 8, 0, 0⟩, ⟨"user:123", 5, 1000000000, 1000000000⟩] ∧
      (∀ p ∈ results (NewTokenBucket 10 (Float64.fin 2))
          [⟨"user:123", 8, 0, 0⟩, ⟨"user:123", 5, 1000000000, 1000000000⟩],
        0 ≤ p.2 ∧ p.2 ≤ 10) :=
  ⟨by decide, by norm_num, by norm_num, by simp [requestsNonneg], by simp [clockMonotone],
    (non_negativity 10 2 0 [⟨"user:123", 8, 0, 0⟩, ⟨"user:123", 5, 1000000000, 1000000000⟩]
      (by decide) (by norm_num) (by norm_num) (by simp [requestsNonneg])
      (by simp [clockMonotone])).2⟩

/-- Calls `Allow(id, 1)` repeated `k` times with no elapsed time, on a limiter
with `capacity ≤ 2^53` and a finite rate whose bucket of `id` holds (or would be
created with) `m ≤ capacity` tokens: `min k m` calls are allowed and the bucket
ends with `m - k` tokens, or `0` when `k` exceeds `m`. -/
theorem unit_calls (id : String) (t : Int) (r : ℚ) (k : Nat) :
    ∀ (tb : TokenBucket) (m : Nat),
      tb.capacity ≤ 9007199254740992 → tb.refillRate = Float64.fin r →
      getState tb id t = { tokens := Float64.fin (m : ℚ), lastRefill := t } →
      (m : Int) ≤ tb.capacity →
      (results tb (List.replicate k ⟨id, 1, t, t⟩)).countP (fun p => p.1) = min k m ∧
        getState (run tb (List.replicate k ⟨id, 1, t, t⟩)) id t =
          { tokens := Float64.fin ((m - k : Nat) : ℚ), lastRefill := t } := by
  induction k with
  | zero =>
    intro tb m _ _ hg _
    simp [results, run, hg]
  | succ k ih =>
    intro tb m hcap hr hg hm
    have hc : float64 tb.capacity = Float64.fin (tb.capacity : ℚ) :=
      float64_of_bounds _ (by omega) hcap
    have hmf : isFloat64 (m : ℚ) := by
      have := isFloat64_of_bounds (m : Int) (by omega) (by omega)
      simpa using this
    have hre : refilled tb id t t = Float64.fin (m : ℚ) :=
      refilled_zero_elapsed tb id t t m _ r hg hmf hc (by exact_mod_cast hm) hr
    rw [List.replicate_succ, results_cons_mk, run_cons, step_mk]
    by_cases h1 : 1 ≤ m
    · have hle : Float64.le (float64 1) (refilled tb id t t) = true := by
        rw [hre, float64_one, Float64.le_fin_fin]; exact_mod_cast h1
      have hsub : Float64.sub (refilled tb id t t) (float64 1)
          = Float64.fin ((m - 1 : Nat) : ℚ) := by
        rw [hre, float64_one]
        simp only [Float64.sub]
        have hcast : (m : ℚ) - 1 = (((m - 1 : Nat) : Int) : ℚ) := by
          push_cast [Nat.cast_sub h1]; ring
        rw [hcast, roundQ_of_bounds _ (by omega) (by omega)]
        simp
      rw [Allow_of_le tb id 1 t t hle, hsub]
      obtain ⟨ih1, ih2⟩ := ih
        (store tb id { tokens := Float64.fin ((m - 1 : Nat) : ℚ), lastRefill := t }) (m - 1)
        hcap hr (getState_of_some t (store_buckets_same _ _ _))
        (by show ((m - 1 : Nat) : Int) ≤ tb.capacity; omega)
      rw [List.countP_cons, ih1, ih2]
      refine ⟨by simp; omega, ?_⟩
      rw [Nat.sub_sub, Nat.add_comm]
    · have hm0 : m = 0 := by omega
      subst hm0
      have hnle : Float64.le (float64 1) (refilled tb id t t) = false := by
        rw [hre, float64_one]
        simp [Float64.le]
      rw [Allow_of_not_le tb id 1 t t hnle, hre]
      obtain ⟨ih1, ih2⟩ := ih
        (store tb id { tokens := Float64.fin ((0 : Nat) : ℚ), lastRefill := t }) 0
        hcap hr (getState_of_some t (store_buckets_same _ _ _))
        (by show ((0 : Nat) : Int) ≤ tb.capacity; omega)
      rw [List.countP_cons, ih1, ih2]
      refine ⟨by simp, ?_⟩
      simp

/-- A call `Allow("u", 1)` with no elapsed time on a bucket of `2^54` tokens,
with `capacity = 2^54` and rate 1: the subtraction rounds back to `2^54`. -/
theorem Allow_two_pow_54 (tb : TokenBucket) (hc : tb.capacity = 2 ^ 54)
    (hr : tb.refillRate = Float64.fin 1)
    (hg : getState tb "u" 0 = { tokens := Float64.fin ((2 : ℚ) ^ (54 : Nat)), lastRefill := 0 }) :
    Allow tb "u" 1 0 0 =
      { tb := store tb "u" { tokens := Float64.fin ((2 : ℚ) ^ (54 : Nat)), lastRefill := 0 },
        allowed := true, remaining := 2 ^ 54 } := by
  have hcf : float64 tb.capacity = Float64.fin ((2 : ℚ) ^ (54 : Nat)) := by
    rw [hc]; exact float64_two_pow_54
  have hre : refilled tb "u" 0 0 = Float64.fin ((2 : ℚ) ^ (54 : Nat)) :=
    refilled_zero_elapsed tb "u" 0 0 _ _ 1 hg (float64_eq_fin hcf) hcf (le_refl _) hr
  have hle : Float64.le (float64 1) (refilled tb "u" 0 0) = true := by
    rw [hre, float64_one, Float64.le_fin_fin]; norm_num
  have hsub : Float64.sub (refilled tb "u" 0 0) (float64 1)
      = Float64.fin ((2 : ℚ) ^ (54 : Nat)) := by
    rw [hre, float64_one]
    simp only [Float64.sub]
    exact roundQ_two_pow_54_sub_one
  rw [Allow_of_le tb "u" 1 0 0 hle, hsub]
  have := int_intCast (2 ^ 54) (by norm_num) (by norm_num)
  norm_num at this ⊢
  exact this

theorem step_two_pow_54 (tb : TokenBucket) (hc : tb.capacity = 2 ^ 54)
    (hr : tb.refillRate = Float64.fin 1)
    (hg : getState tb "u" 0 = { tokens := Float64.fin ((2 : ℚ) ^ (54 : Nat)), lastRefill := 0 }) :
    step tb ⟨"u", 1, 0, 0⟩ =
      store tb "u" { tokens := Float64.fin ((2 : ℚ) ^ (54 : Nat)), lastRefill := 0 } := by
  rw [step_mk, Allow_two_pow_54 tb hc hr hg]

/-- Claim C8 as stated fails. On `NewTokenBucket(2^54, 1)` three callers each
call `Allow("u", 1)` once with no elapsed time; the bucket then still holds
`2^54` tokens, not `2^54 - 3`: each decrement is lost in the rounding of the
subtraction. And on `NewTokenBucket(10, +Inf)` one caller calling
`Allow("u", 1)` once is denied (`0 * +Inf` is NaN): no call is allowed, not
`min(1, 10) = 1`. -/
theorem decrements_lost_to_rounding :
    ([⟨"u", 1, 0, 0⟩, ⟨"u", 1, 0, 0⟩, ⟨"u", 1, 0, 0⟩] : List Call).Perm
        (List.replicate 3 (List.replicate 1 ⟨"u", 1, 0, 0⟩)).flatten ∧
      (run (NewTokenBucket (2 ^ 54) (Float64.fin 1))
          [⟨"u", 1, 0, 0⟩, ⟨"u", 1, 0, 0⟩, ⟨"u", 1, 0, 0⟩]).buckets "u" =
        some { tokens := Float64.fin ((2 : ℚ) ^ (54 : Nat)), lastRefill := 0 } ∧
      ((2 : ℚ) ^ (54 : Nat)) ≠ (((max 0 (2 ^ 54 - ((3 * 1 : Nat) : Int)) : Int)) : ℚ) ∧
      ([⟨"u", 1, 0, 0⟩] : List Call).Perm
        (List.replicate 1 (List.replicate 1 ⟨"u", 1, 0, 0⟩)).flatten ∧
      (results (NewTokenBucket 10 Float64.posInf) [⟨"u", 1, 0, 0⟩]).countP (fun p => p.1) = 0 ∧
      ((0 : Nat) : Int) ≠ min ((1 * 1 : Nat) : Int) 10 := by
  refine ⟨by simp, ?_, by norm_num, by simp, ?_, by norm_num⟩
  swap
  · rw [results_cons_mk, results_nil, Allow_posInf_rate]
    rfl
  have hg0 : getState (NewTokenBucket (2 ^ 54) (Float64.fin 1)) "u" 0 =
      { tokens := Float64.fin ((2 : ℚ) ^ (54 : Nat)), lastRefill := 0 } := by
    rw [getState_of_none 0 rfl]
    simp only [NewTokenBucket]
    rw [float64_two_pow_54]
  have hc0 : (NewTokenBucket (2 ^ 54) (Float64.fin 1)).capacity = 2 ^ 54 := rfl
  have hr0 : (NewTokenBucket (2 ^ 54) (Float64.fin 1)).refillRate = Float64.fin 1 := rfl
  rw [run_cons, step_two_pow_54 _ hc0 hr0 hg0]
  rw [run_cons, step_two_pow_54 _ (by rw [store_capacity, hc0]) (by rw [store_refillRate, hr0])
    (getState_of_some 0 (store_buckets_same _ _ _))]
  rw [run_cons, step_two_pow_54 _ (by rw [store_capacity, store_capacity, hc0])
    (by rw [store_refillRate, store_refillRate, hr0])
    (getState_of_some 0 (store_buckets_same _ _ _))]
  rw [run_nil]
  exact store_buckets_same _ _ _

/-- Claim C8 (no lost or duplicated decrements), amended with
`0 ≤ capacity ≤ 2^53` and a finite rate: on a fresh limiter, when `N` callers
each call `Allow(id, 1)` `M` times with all clock readings equal, for every
order in which the `N * M` calls are serialised exactly `min(N * M, capacity)`
calls are allowed and the tokens of `id` at the end (those of its bucket, a
bucket not yet made counting as full) are `max(0, capacity - N * M)`. -/
theorem no_lost_decrements (capacity : Int) (r : ℚ) (id : String) (t : Int)
    (N M : Nat) (schedule : List Call) (hcap0 : 0 ≤ capacity) (hcap : capacity ≤ 2 ^ 53)
    (hs : schedule.Perm (List.replicate N (List.replicate M ⟨id, 1, t, t⟩)).flatten) :
    (((results (NewTokenBucket capacity (Float64.fin r)) schedule).countP
        (fun p => p.1) : Nat) : Int) = min ((N * M : Nat) : Int) capacity ∧
      (getState (run (NewTokenBucket capacity (Float64.fin r)) schedule) id t).tokens =
        Float64.fin (((max 0 (capacity - ((N * M : Nat) : Int)) : Int)) : ℚ) := by
  norm_num at hcap
  rw [List.flatten_replicate_replicate, List.perm_replicate] at hs
  subst hs
  obtain ⟨m, rfl⟩ := Int.eq_ofNat_of_zero_le hcap0
  have hg : getState (NewTokenBucket (m : Int) (Float64.fin r)) id t =
      { tokens := Float64.fin (m : ℚ), lastRefill := t } := by
    rw [getState_of_none t rfl]
    simp only [NewTokenBucket]
    rw [float64_of_bounds _ (by omega) hcap]
    simp
  obtain ⟨h1, h2⟩ := unit_calls id t r (N * M) (NewTokenBucket (m : Int) (Float64.fin r)) m
    hcap rfl hg (by simp [NewTokenBucket])
  constructor
  · rw [h1]; omega
  · rw [h2]
    have : ((m - N * M : Nat) : Int) = max 0 ((m : Int) - ((N * M : Nat) : Int)) := by omega
    rw [← this]
    simp

/-- Claim C8 (amended) at the input of `TestTokenBucket_ConcurrentAccess`: 10
callers, 10 calls each, capacity 1000. -/
theorem no_lost_decrements_witness :
    (0 : Int) ≤ 1000 ∧ (1000 : Int) ≤ 2 ^ 53 ∧
      (List.replicate 100 (⟨"user:concurrent", 1, 0, 0⟩ : Call)).Perm
        (List.replicate 10 (List.replicate 10 ⟨"user:concurrent", 1, 0, 0⟩)).flatten ∧
      (((results (NewTokenBucket 1000 (Float64.fin 100))
          (List.replicate 100 ⟨"user:concurrent", 1, 0, 0⟩)).countP (fun p => p.1) : Nat) : Int)
        = min ((10 * 10 : Nat) : Int) 1000 ∧
      (getState (run (NewTokenBucket 1000 (Float64.fin 100))
          (List.replicate 100 ⟨"user:concurrent", 1, 0, 0⟩)) "user:concurrent" 0).tokens =
        Float64.fin (((max 0 (1000 - ((10 * 10 : Nat) : Int)) : Int)) : ℚ) := by
  have hp : (List.replicate 100 (⟨"user:concurrent", 1, 0, 0⟩ : Call)).Perm
      (List.replicate 10 (List.replicate 10 ⟨"user:concurrent", 1, 0, 0⟩)).flatten := by
    rw [List.flatten_replicate_replicate]
  have key := no_lost_decrements 1000 100 "user:concurrent" 0 10 10
    (List.replicate 100 ⟨"user:concurrent", 1, 0, 0⟩) (by decide) (by norm_num) hp
  exact ⟨by decide, by norm_num, hp, key.1, key.2⟩

/-- A negative request is not rejected: on `NewTokenBucket(10, 2)` the first
call `Allow("u", -5)` is allowed, returns `remaining = 15` and leaves 15 tokens
in the bucket, above `capacity` (the field comment of `capacity` reads "Max
tokens the bucket can hold"). -/
theorem negative_request_raises_tokens :
    Allow (NewTokenBucket 10 (Float64.fin 2)) "u" (-5) 0 0 =
      { tb := store (NewTokenBucket 10 (Float64.fin 2)) "u"
          { tokens := Float64.fin 15, lastRefill := 0 },
        allowed := true, remaining := 15 } := by
  have hc : float64 (NewTokenBucket 10 (Float64.fin 2)).capacity = Float64.fin 10 := by
    simpa [NewTokenBucket] using float64_of_bounds 10 (by norm_num) (by norm_num)
  have hre : refilled (NewTokenBucket 10 (Float64.fin 2)) "u" 0 0 = Float64.fin 10 :=
    refilled_fresh _ "u" 0 0 10 2 rfl hc rfl (by norm_num) (le_refl 0)
  have hq : float64 (-5) = Float64.fin (-5) := by
    simpa using float64_of_bounds (-5) (by norm_num) (by norm_num)
  have hle : Float64.le (float64 (-5)) (refilled (NewTokenBucket 10 (Float64.fin 2)) "u" 0 0)
      = true := by
    rw [hre, hq, Float64.le_fin_fin]; norm_num
  have hsub : Float64.sub (refilled (NewTokenBucket 10 (Float64.fin 2)) "u" 0 0) (float64 (-5))
      = Float64.fin 15 := by
    rw [hre, hq]
    simp only [Float64.sub]
    have : (10 : ℚ) - (-5) = ((15 : Int) : ℚ) := by norm_num
    rw [this, roundQ_of_bounds 15 (by norm_num) (by norm_num)]
    simp
  rw [Allow_of_le _ _ _ _ _ hle, hsub]
  have := int_intCast 15 (by norm_num) (by norm_num)
  simp only [Int.cast_ofNat] at this
  rw [this]

end TokenBucketLimiter
